import Mathlib

/-!
Shallow embedding of the mini-slcan crate (SLCAN codec).

Bytes are modelled as `Nat` (values below 256 where the Rust type is `u8`);
machine-integer overflow is made explicit with `% 2 ^ w` at the operations
where the Rust code could wrap or truncate.  Fallible Rust functions
(`Result<T, Error>`) become `Except Error`.  Rust panics (assertion failures,
`unwrap`, out-of-bounds indexing) are modelled by an outer `Option` layer
(`none` = panic) on the functions that contain them.  Stateful code is
explicit state passing: a `Reader` is the remaining input list, a `Writer`
is the pair (bytes written so far, remaining free capacity) - the slice
`&buf[..used]` returned by the encoders is exactly the written prefix.
-/

deriving instance DecidableEq for Except

/-! ## error.rs -/

/-- `ErrorKind` from `error.rs`. -/
inductive ErrorKind where
  /-- Input is malformed (`Decode`). -/
  | Decode
  /-- More data is required (`Eof`). -/
  | Eof
deriving DecidableEq, Repr

/-- `Error` from `error.rs`: a struct holding an `ErrorKind`. -/
structure Error where
  kind : ErrorKind
deriving DecidableEq, Repr

/-- `Error::decode()`. -/
def Error.decode : Error := ⟨ErrorKind.Decode⟩

/-- `Error::eof()`. -/
def Error.eof : Error := ⟨ErrorKind.Eof⟩

/-! ## lib.rs: value types -/

/-- `Bitrate` from `lib.rs`; constructor `k10` is the source's `_10kbit`,
`m1` is `_1mbit`, and so on. -/
inductive Bitrate where
  | k10 | k20 | k50 | k100 | k125 | k250 | k500 | k800 | m1
deriving DecidableEq, Repr

/-- `Status` from `lib.rs`: a `bitflags` set backed by a `u8`. -/
structure Status where
  bits : Nat
deriving DecidableEq, Repr

/-- `SerialNumber` from `lib.rs`: 4 raw bytes (field `0` of the Rust tuple
struct, an `[u8; 4]`). -/
structure SerialNumber where
  raw : List Nat
deriving DecidableEq, Repr

/-- A byte is ASCII alphanumeric (`u8::is_ascii_alphanumeric`). -/
def isAsciiAlphanumeric (b : Nat) : Bool :=
  (48 ≤ b && b ≤ 57) || (65 ≤ b && b ≤ 90) || (97 ≤ b && b ≤ 122)

/-- `SerialNumber::new`: all 4 bytes must be ASCII alphanumeric. -/
def SerialNumber.new (raw : List Nat) : Option SerialNumber :=
  if raw.length = 4 ∧ raw.all isAsciiAlphanumeric then some ⟨raw⟩ else none

/-- `CanFrame` from `lib.rs`: 8-byte backing array plus length counter.
The Rust derived `Eq` compares the whole `data` array (unused tail
included) together with `len`, and so does the derived Lean instance. -/
structure CanFrame where
  data : List Nat
  len : Nat
deriving DecidableEq, Repr

/-- `CanFrame::MAX_LENGTH`. -/
def CanFrame.MAX_LENGTH : Nat := 8

/-- `CanFrame::new()`: zeroed data, length 0. -/
def CanFrame.new : CanFrame := ⟨List.replicate 8 0, 0⟩

/-- `CanFrame::push`: fails (keeping the frame unchanged) when `len`
equals `MAX_LENGTH`, otherwise stores the byte at index `len` and
increments `len`.  (For the unreachable states with `len > 8` the Rust
indexing would panic; every reachable `CanFrame` has `len ≤ 8`, which the
theorems below carry as a hypothesis.) -/
def CanFrame.push (f : CanFrame) (byte : Nat) : Except Error Unit × CanFrame :=
  if f.len = CanFrame.MAX_LENGTH then (Except.error Error.eof, f)
  else (Except.ok (), ⟨f.data.set f.len byte, f.len + 1⟩)

/-- `CanFrame::from<[u8; N]>`: copies the array into the front of a zeroed
backing buffer and sets `len` to `N`. -/
def CanFrame.fromList (arr : List Nat) : CanFrame :=
  ⟨arr ++ List.replicate (8 - arr.length) 0, arr.length⟩

/-- Well-formedness of a reachable `CanFrame`: backing array of 8 bytes,
`len ≤ 8`, bytes past `len` still zero (no public operation can write
them), all bytes below 256 (`u8`). -/
def CanFrame.wf (f : CanFrame) : Prop :=
  f.data.length = 8 ∧ f.len ≤ 8 ∧ f.data.drop f.len = List.replicate (8 - f.len) 0 ∧
    ∀ b ∈ f.data, b < 256

/-! ## identifier.rs -/

/-- `Identifier` from `identifier.rs`: standard 11-bit CAN identifier
(backed by a `u16`). -/
structure Identifier where
  raw : Nat
deriving DecidableEq, Repr

/-- `Identifier::from_raw`: `None` iff the value exceeds `0x7FF`. -/
def Identifier.from_raw (raw : Nat) : Option Identifier :=
  if raw > 0x7FF then none else some ⟨raw⟩

/-- `Identifier::as_raw`. -/
def Identifier.as_raw (i : Identifier) : Nat := i.raw

/-- `ExtIdentifier` from `identifier.rs`: extended 29-bit CAN identifier
(backed by a `u32`). -/
structure ExtIdentifier where
  raw : Nat
deriving DecidableEq, Repr

/-- `ExtIdentifier::from_raw`: `None` iff the value exceeds `0x1FFFFFFF`. -/
def ExtIdentifier.from_raw (raw : Nat) : Option ExtIdentifier :=
  if raw > 0x1FFFFFFF then none else some ⟨raw⟩

/-- `ExtIdentifier::as_raw`. -/
def ExtIdentifier.as_raw (i : ExtIdentifier) : Nat := i.raw

/-! ## read.rs: `Command` and the decoder -/

/-- `Command` from `read.rs`. -/
inductive Command where
  | SetupWithBitrate (bitrate : Bitrate)
  | Open
  | Close
  | TxStandard (identifier : Identifier) (frame : CanFrame)
  | TxExt (identifier : ExtIdentifier) (frame : CanFrame)
  | TxStandardRtr (identifier : Identifier) (len : Nat)
  | TxExtRtr (identifier : ExtIdentifier) (len : Nat)
  | ReadStatus
  | ReadVersion
  | ReadSerial
  | SetRxTimestamp (timestamp : Bool)
deriving DecidableEq, Repr

/-- `Command::MAX_ENCODED_LEN` (= 27). -/
def Command.MAX_ENCODED_LEN : Nat := 1 + 8 + 1 + 16 + 1

/-- `Reader::read_byte`: pop the first input byte, `Eof` when empty. -/
def Reader.read_byte : List Nat → Except Error (Nat × List Nat)
  | [] => Except.error Error.eof
  | b :: rest => Except.ok (b, rest)

/-- `unhex` from `read.rs`: ASCII `0-9`/`A-F` to its value, else `Decode`. -/
def unhex (digit : Nat) : Except Error Nat :=
  if 48 ≤ digit ∧ digit ≤ 57 then Except.ok (digit - 48)
  else if 65 ≤ digit ∧ digit ≤ 70 then Except.ok (digit - 65 + 10)
  else Except.error Error.decode

/-- Loop body of `Reader::read_hex_digits`: `val` is the `u32`
accumulator, updated by `val <<= 4; val |= nibble` (the shift truncates to
32 bits). -/
def Reader.readHexGo : Nat → Nat → List Nat → Except Error (Nat × List Nat)
  | 0, val, input => Except.ok (val, input)
  | d + 1, val, input =>
    match Reader.read_byte input with
    | Except.error e => Except.error e
    | Except.ok (b, rest) =>
      match unhex b with
      | Except.error e => Except.error e
      | Except.ok nib => Reader.readHexGo d (((val <<< 4) % 4294967296) ||| nib) rest

/-- `Reader::read_hex_digits`. -/
def Reader.read_hex_digits (digits : Nat) (input : List Nat) :
    Except Error (Nat × List Nat) :=
  Reader.readHexGo digits 0 input

/-- `Reader::read_hex_u4` (the `as u8` cast is `% 256`). -/
def Reader.read_hex_u4 (input : List Nat) : Except Error (Nat × List Nat) :=
  match Reader.read_hex_digits 1 input with
  | Except.error e => Except.error e
  | Except.ok (v, rest) => Except.ok (v % 256, rest)

/-- `Reader::read_hex_u8` (the `as u8` cast is `% 256`). -/
def Reader.read_hex_u8 (input : List Nat) : Except Error (Nat × List Nat) :=
  match Reader.read_hex_digits 2 input with
  | Except.error e => Except.error e
  | Except.ok (v, rest) => Except.ok (v % 256, rest)

/-- `Reader::read_hex_identifier`: 3 hex digits, cast `as u16`, then
`Identifier::from_raw(...).ok_or(Error::decode())`. -/
def Reader.read_hex_identifier (input : List Nat) :
    Except Error (Identifier × List Nat) :=
  match Reader.read_hex_digits 3 input with
  | Except.error e => Except.error e
  | Except.ok (v, rest) =>
    match Identifier.from_raw (v % 65536) with
    | none => Except.error Error.decode
    | some id => Except.ok (id, rest)

/-- `Reader::read_hex_ext_identifier`: 8 hex digits, then
`ExtIdentifier::from_raw(...).ok_or(Error::decode())`. -/
def Reader.read_hex_ext_identifier (input : List Nat) :
    Except Error (ExtIdentifier × List Nat) :=
  match Reader.read_hex_digits 8 input with
  | Except.error e => Except.error e
  | Except.ok (v, rest) =>
    match ExtIdentifier.from_raw v with
    | none => Except.error Error.decode
    | some id => Except.ok (id, rest)

/-- Loop body of `Reader::read_frame`: reads `n` hex byte pairs, pushing
each onto the frame; the source `frame.push(byte).unwrap()` panic is the
`none` outcome. -/
def Reader.readFrameGo : Nat → CanFrame → List Nat →
    Option (Except Error (CanFrame × List Nat))
  | 0, frame, input => some (Except.ok (frame, input))
  | n + 1, frame, input =>
    match Reader.read_hex_u8 input with
    | Except.error e => some (Except.error e)
    | Except.ok (byte, rest) =>
      match CanFrame.push frame byte with
      | (Except.error _, _) => none
      | (Except.ok _, frame') => Reader.readFrameGo n frame' rest

/-- `Reader::read_frame`: `assert!(len <= 8)` (panic = `none`), then read
`len` hex byte pairs into a fresh frame. -/
def Reader.read_frame (len : Nat) (input : List Nat) :
    Option (Except Error (CanFrame × List Nat)) :=
  if len ≤ 8 then Reader.readFrameGo len CanFrame.new input else none

/-- The bitrate selection of the `S` arm (the inner `match` of the
source, over the ASCII digit). -/
def bitrateOfByte (b : Nat) : Option Bitrate :=
  if b = 48 then some Bitrate.k10
  else if b = 49 then some Bitrate.k20
  else if b = 50 then some Bitrate.k50
  else if b = 51 then some Bitrate.k100
  else if b = 52 then some Bitrate.k125
  else if b = 53 then some Bitrate.k250
  else if b = 54 then some Bitrate.k500
  else if b = 55 then some Bitrate.k800
  else if b = 56 then some Bitrate.m1
  else none

/-- The timestamp-flag selection of the `Z` arm. -/
def tsFlagOfByte (b : Nat) : Option Bool :=
  if b = 48 then some false
  else if b = 49 then some true
  else none

/-- The `S` arm of `Command::decode`: one bitrate digit. -/
def Command.decodeSetup (r1 : List Nat) : Option (Except Error (Command × List Nat)) :=
  match Reader.read_byte r1 with
  | Except.error e => some (Except.error e)
  | Except.ok (b, r2) =>
    match bitrateOfByte b with
    | some bitrate => some (Except.ok (Command.SetupWithBitrate bitrate, r2))
    | none => some (Except.error Error.decode)

/-- The `t` arm of `Command::decode`: identifier, length (≤ 8), frame. -/
def Command.decodeTxStandard (r1 : List Nat) :
    Option (Except Error (Command × List Nat)) :=
  match Reader.read_hex_identifier r1 with
  | Except.error e => some (Except.error e)
  | Except.ok (identifier, r2) =>
    match Reader.read_hex_u4 r2 with
    | Except.error e => some (Except.error e)
    | Except.ok (len, r3) =>
      if len > 8 then some (Except.error Error.decode)
      else
        match Reader.read_frame len r3 with
        | none => none
        | some (Except.error e) => some (Except.error e)
        | some (Except.ok (frame, r4)) =>
          some (Except.ok (Command.TxStandard identifier frame, r4))

/-- The `T` arm of `Command::decode`. -/
def Command.decodeTxExt (r1 : List Nat) :
    Option (Except Error (Command × List Nat)) :=
  match Reader.read_hex_ext_identifier r1 with
  | Except.error e => some (Except.error e)
  | Except.ok (identifier, r2) =>
    match Reader.read_hex_u4 r2 with
    | Except.error e => some (Except.error e)
    | Except.ok (len, r3) =>
      if len > 8 then some (Except.error Error.decode)
      else
        match Reader.read_frame len r3 with
        | none => none
        | some (Except.error e) => some (Except.error e)
        | some (Except.ok (frame, r4)) =>
          some (Except.ok (Command.TxExt identifier frame, r4))

/-- The `r` arm of `Command::decode`. -/
def Command.decodeTxStandardRtr (r1 : List Nat) :
    Option (Except Error (Command × List Nat)) :=
  match Reader.read_hex_identifier r1 with
  | Except.error e => some (Except.error e)
  | Except.ok (identifier, r2) =>
    match Reader.read_hex_u4 r2 with
    | Except.error e => some (Except.error e)
    | Except.ok (len, r3) =>
      if len > 8 then some (Except.error Error.decode)
      else some (Except.ok (Command.TxStandardRtr identifier len, r3))

/-- The `R` arm of `Command::decode`. -/
def Command.decodeTxExtRtr (r1 : List Nat) :
    Option (Except Error (Command × List Nat)) :=
  match Reader.read_hex_ext_identifier r1 with
  | Except.error e => some (Except.error e)
  | Except.ok (identifier, r2) =>
    match Reader.read_hex_u4 r2 with
    | Except.error e => some (Except.error e)
    | Except.ok (len, r3) =>
      if len > 8 then some (Except.error Error.decode)
      else some (Except.ok (Command.TxExtRtr identifier len, r3))

/-- The `Z` arm of `Command::decode`: one `0`/`1` digit. -/
def Command.decodeSetRx (r1 : List Nat) :
    Option (Except Error (Command × List Nat)) :=
  match Reader.read_byte r1 with
  | Except.error e => some (Except.error e)
  | Except.ok (b, r2) =>
    match tsFlagOfByte b with
    | some timestamp => some (Except.ok (Command.SetRxTimestamp timestamp, r2))
    | none => some (Except.error Error.decode)

/-- The opcode dispatch of `Command::decode` (one function per `match`
arm of the source; everything before the common terminator /
trailing-data checks).  Returns the decoded command together with the
unread remainder of the input. -/
def Command.dispatch (op : Nat) (r1 : List Nat) :
    Option (Except Error (Command × List Nat)) :=
  if op = 83 then Command.decodeSetup r1            -- b'S'
  else if op = 79 then some (Except.ok (Command.Open, r1))   -- b'O'
  else if op = 67 then some (Except.ok (Command.Close, r1))  -- b'C'
  else if op = 116 then Command.decodeTxStandard r1          -- b't'
  else if op = 84 then Command.decodeTxExt r1                -- b'T'
  else if op = 114 then Command.decodeTxStandardRtr r1       -- b'r'
  else if op = 82 then Command.decodeTxExtRtr r1             -- b'R'
  else if op = 70 then some (Except.ok (Command.ReadStatus, r1))   -- b'F'
  else if op = 86 then some (Except.ok (Command.ReadVersion, r1))  -- b'V'
  else if op = 78 then some (Except.ok (Command.ReadSerial, r1))   -- b'N'
  else if op = 90 then Command.decodeSetRx r1                -- b'Z'
  else some (Except.error Error.decode)

/-- `let op = reader.read_byte()?` followed by the opcode dispatch. -/
def Command.decodeBody (input : List Nat) :
    Option (Except Error (Command × List Nat)) :=
  match Reader.read_byte input with
  | Except.error e => some (Except.error e)
  | Except.ok (op, r1) => Command.dispatch op r1

/-- `Command::decode`: opcode dispatch, then the terminator byte must be
CR (13) and no input may remain.  `none` models a panic (which claim C10
shows unreachable). -/
def Command.decode (input : List Nat) : Option (Except Error Command) :=
  match Command.decodeBody input with
  | none => none
  | some (Except.error e) => some (Except.error e)
  | some (Except.ok (cmd, rest)) =>
    match Reader.read_byte rest with
    | Except.error e => some (Except.error e)
    | Except.ok (b, rest2) =>
      if b ≠ 13 then some (Except.error Error.decode)
      else if rest2 ≠ [] then some (Except.error Error.decode)
      else some (Except.ok cmd)

/-- `Command::decode` with the provably-unreachable panic branch defaulted
(justified by the totality theorem for claim C10); used by the framer. -/
def Command.decodeD (input : List Nat) : Except Error Command :=
  (Command.decode input).getD (Except.error Error.decode)

/-! ## read.rs: `CommandBuf` / `CommandIter` (the incremental framer)

`advance_by` + iterator consumption + the `Drop` compaction are modelled
as explicit state passing: `CommandIter.next` takes the buffer and the
iterator's `pos` field and returns the yielded item with the new `pos`
(it never mutates the buffer), `CommandIter.run` drains the iterator to
exhaustion (fuel-based; `used + 1` steps always suffice), and
`CommandIter.drop` is the `Drop` impl's compaction.  `CommandBuf.feed`
bundles one caller cycle: copy a chunk into `tail_mut`, `advance_by` its
length, drain the returned iterator, drop it. -/

/-- `CommandBuf` from `read.rs`: 27-byte backing array plus used count. -/
structure CommandBuf where
  bytes : List Nat
  used : Nat
deriving DecidableEq, Repr

/-- `CommandBuf::new()`. -/
def CommandBuf.new : CommandBuf := ⟨List.replicate Command.MAX_ENCODED_LEN 0, 0⟩

/-- The meaningful content of the buffer: `bytes[..used]`. -/
def CommandBuf.dataOf (buf : CommandBuf) : List Nat := buf.bytes.take buf.used

/-- `CommandBuf::is_full`. -/
def CommandBuf.is_full (buf : CommandBuf) : Bool :=
  buf.used == Command.MAX_ENCODED_LEN

/-- `CommandBuf::find_cr`: position of the first CR in `bytes[start..used]`,
mapped back to an absolute index. -/
def CommandBuf.find_cr (buf : CommandBuf) (start : Nat) : Option Nat :=
  (((buf.bytes.take buf.used).drop start).findIdx? (· == 13)).map (· + start)

/-- `CommandIter::next` (`Iterator` impl in `read.rs`).  Arguments are the
borrowed buffer and the iterator's `pos` field; the result is the yielded
item (if any) together with the updated `pos`. -/
def CommandIter.next (buf : CommandBuf) (pos : Nat) :
    Option (Except Error Command × Nat) :=
  match buf.find_cr pos with
  | some e =>
    let cmd := (buf.bytes.drop pos).take (e + 1 - pos)
    some (Command.decodeD cmd, pos + cmd.length)
  | none =>
    if pos = 0 ∧ buf.is_full then
      -- No CR in the entire (full) buffer: yield one decode error and
      -- mark the whole buffer as consumed.
      some (Except.error Error.decode, Command.MAX_ENCODED_LEN)
    else none

/-- Exhaustively consume the iterator, collecting the yielded items and
returning the final `pos`. -/
def CommandIter.run (buf : CommandBuf) (pos : Nat) : Nat →
    List (Except Error Command) × Nat
  | 0 => ([], pos)
  | fuel + 1 =>
    match CommandIter.next buf pos with
    | none => ([], pos)
    | some (r, pos') =>
      let rest := CommandIter.run buf pos' fuel
      (r :: rest.1, rest.2)

/-- `Drop for CommandIter`: `copy_within(decoded_end.., 0)` followed by
`used -= decoded_end`.  `copy_within` moves `bytes[pos..]` to the front
and leaves the last `pos` bytes unchanged. -/
def CommandIter.drop (buf : CommandBuf) (pos : Nat) : CommandBuf :=
  ⟨buf.bytes.drop pos ++ buf.bytes.drop (buf.bytes.length - pos), buf.used - pos⟩

/-- One full caller cycle on a `CommandBuf`: copy `chunk` into `tail_mut`,
call `advance_by (chunk.length)`, drain the returned iterator and drop it.
Returns the drained results and the compacted buffer.  (The copy and
`advance_by`'s assert require `used + chunk.length ≤ 27`; theorems carry
this as a hypothesis.) -/
def CommandBuf.feed (buf : CommandBuf) (chunk : List Nat) :
    List (Except Error Command) × CommandBuf :=
  let buf1 : CommandBuf :=
    ⟨buf.bytes.take buf.used ++ chunk ++ buf.bytes.drop (buf.used + chunk.length),
     buf.used + chunk.length⟩
  let r := CommandIter.run buf1 0 (buf1.used + 1)
  (r.1, CommandIter.drop buf1 r.2)

/-- Iterated `CommandBuf.feed` over a list of chunks, concatenating the
decode results in order. -/
def CommandBuf.feedAll (buf : CommandBuf) :
    List (List Nat) → List (Except Error Command) × CommandBuf
  | [] => ([], buf)
  | c :: cs =>
    let r := CommandBuf.feed buf c
    let r' := CommandBuf.feedAll r.2 cs
    (r.1 ++ r'.1, r'.2)

/-! ### Pure specification of one drain pass

`splitCmds` splits a byte list into its CR-terminated segments (each
including its CR) and the CR-free remainder; `processData` is the pure
description of one drain pass over the buffer content. -/

/-- Split a byte list into CR-terminated commands plus CR-free rest. -/
def splitCmds : List Nat → List (List Nat) × List Nat
  | [] => ([], [])
  | b :: rest =>
    if b = 13 then
      let s := splitCmds rest
      ([b] :: s.1, s.2)
    else
      match splitCmds rest with
      | (c :: cs, r) => ((b :: c) :: cs, r)
      | ([], r) => ([], b :: r)

/-- Pure description of one drain pass over buffer content `data`:
decode every complete command in order; if there is none and the buffer
is completely full, yield one decode error and discard everything. -/
def processData (data : List Nat) : List (Except Error Command) × List Nat :=
  let s := splitCmds data
  if s.1 = [] ∧ data.length = Command.MAX_ENCODED_LEN then
    ([Except.error Error.decode], [])
  else (s.1.map Command.decodeD, s.2)

/-! ## write.rs: the encoders

A `Writer` borrows a suffix of the output buffer and fills it from the
front; the encoder then returns `&buf[..used]` with
`used = capacity - remaining`.  Since writes are sequential from the
start, that returned slice is exactly the sequence of bytes written, so a
writer state is modelled as (written bytes, remaining free capacity). -/

/-- A writer state: bytes written so far and remaining free capacity. -/
abbrev WriterState := List Nat × Nat

/-- Result of a writer operation. -/
abbrev WriterResult := Except Error WriterState

/-- Result of an encoder: the written slice `&buf[..used]`, or an error.
(Named so that it stays resolvable inside the `Response` namespace, whose
`Error` constructor shadows the `Error` type.) -/
abbrev EncodeResult := Except Error (List Nat)

/-- `MAX_RESPONSE_LEN` from `write.rs`. -/
def MAX_RESPONSE_LEN : Nat := 6

/-- `MAX_NOTIF_LEN` from `write.rs` (= 31). -/
def MAX_NOTIF_LEN : Nat := 1 + 8 + 1 + 16 + 4 + 1

/-- `Writer::write`: append one byte, `Eof` when no capacity remains. -/
def Writer.write (byte : Nat) : List Nat × Nat → Except Error (List Nat × Nat)
  | (_, 0) => Except.error Error.eof
  | (w, n + 1) => Except.ok (w ++ [byte], n)

/-- `hex` from `write.rs`: nibble to uppercase ASCII hex digit.  (The
source's `unreachable!()` branch for `nibble > 15` cannot fire: every
caller masks the argument with `0xF`.) -/
def hex (nibble : Nat) : Nat :=
  if nibble ≤ 9 then 48 + nibble
  else if nibble ≤ 15 then 65 + nibble - 10
  else 0

/-- `Writer::write_hex`: `digits` hex digits of `value`, most significant
nibble first (the source's loop counts `shift` down from `digits * 4`). -/
def Writer.write_hex (value : Nat) : Nat → List Nat × Nat →
    Except Error (List Nat × Nat)
  | 0, st => Except.ok st
  | d + 1, st =>
    match Writer.write (hex ((value >>> (d * 4)) % 16)) st with
    | Except.error e => Except.error e
    | Except.ok st' => Writer.write_hex value d st'

/-- `Writer::write_hex_u4`. -/
def Writer.write_hex_u4 (val : Nat) (st : List Nat × Nat) :
    Except Error (List Nat × Nat) :=
  Writer.write_hex val 1 st

/-- `Writer::write_hex_u8`. -/
def Writer.write_hex_u8 (val : Nat) (st : List Nat × Nat) :
    Except Error (List Nat × Nat) :=
  Writer.write_hex val 2 st

/-- `Writer::write_hex_u16`. -/
def Writer.write_hex_u16 (val : Nat) (st : List Nat × Nat) :
    Except Error (List Nat × Nat) :=
  Writer.write_hex val 4 st

/-- `Writer::write_identifier`: 3 hex digits of the raw value. -/
def Writer.write_identifier (id : Identifier) (st : List Nat × Nat) :
    Except Error (List Nat × Nat) :=
  Writer.write_hex id.as_raw 3 st

/-- `Writer::write_ext_identifier`: 8 hex digits of the raw value. -/
def Writer.write_ext_identifier (id : ExtIdentifier) (st : List Nat × Nat) :
    Except Error (List Nat × Nat) :=
  Writer.write_hex id.as_raw 8 st

/-- Loop body of `Writer::write_frame`: one hex byte pair per data byte. -/
def Writer.writeFrameBytes : List Nat → List Nat × Nat →
    Except Error (List Nat × Nat)
  | [], st => Except.ok st
  | b :: bs, st =>
    match Writer.write_hex_u8 b st with
    | Except.error e => Except.error e
    | Except.ok st' => Writer.writeFrameBytes bs st'

/-- `Writer::write_frame`: length digit then the payload bytes in hex. -/
def Writer.write_frame (f : CanFrame) (st : List Nat × Nat) :
    Except Error (List Nat × Nat) :=
  match Writer.write_hex_u4 f.len st with
  | Except.error e => Except.error e
  | Except.ok st' => Writer.writeFrameBytes (f.data.take f.len) st'

/-- Loop in the `Response::Serial` arm of `Response::encode`:
`for byte in &serial.0 { writer.write(*byte)?; }`. -/
def Writer.writeSerialBytes : List Nat → List Nat × Nat →
    Except Error (List Nat × Nat)
  | [], st => Except.ok st
  | b :: bs, st =>
    match Writer.write b st with
    | Except.error e => Except.error e
    | Except.ok st' => Writer.writeSerialBytes bs st'

/-- `Response` from `write.rs`. -/
inductive Response where
  | Error
  | Ack
  | TxAck
  | ExtTxAck
  | Status (flags : Status)
  | Version (hardware_version : Nat) (software_version : Nat)
  | Serial (serial : SerialNumber)
deriving DecidableEq, Repr

/-- `Response::encode` into a `ResponseBuf` (capacity 6): returns the
written prefix `&buf[..used]`. -/
def Response.encode (r : Response) : EncodeResult :=
  let st0 : WriterState := ([], MAX_RESPONSE_LEN)
  let res : WriterResult :=
    match r with
    | Response.Error => Writer.write 7 st0  -- BELL, not followed by CR
    | Response.Ack => Writer.write 13 st0
    | Response.TxAck =>
      match Writer.write 122 st0 with  -- b'z'
      | Except.error e => Except.error e
      | Except.ok st1 => Writer.write 13 st1
    | Response.ExtTxAck =>
      match Writer.write 90 st0 with  -- b'Z'
      | Except.error e => Except.error e
      | Except.ok st1 => Writer.write 13 st1
    | Response.Status flags =>
      match Writer.write 70 st0 with  -- b'F'
      | Except.error e => Except.error e
      | Except.ok st1 =>
        match Writer.write_hex_u8 flags.bits st1 with
        | Except.error e => Except.error e
        | Except.ok st2 => Writer.write 13 st2
    | Response.Version hardware_version software_version =>
      match Writer.write 86 st0 with  -- b'V'
      | Except.error e => Except.error e
      | Except.ok st1 =>
        match Writer.write_hex_u8 hardware_version st1 with
        | Except.error e => Except.error e
        | Except.ok st2 =>
          match Writer.write_hex_u8 software_version st2 with
          | Except.error e => Except.error e
          | Except.ok st3 => Writer.write 13 st3
    | Response.Serial serial =>
      match Writer.write 78 st0 with  -- b'N'
      | Except.error e => Except.error e
      | Except.ok st1 =>
        match Writer.writeSerialBytes serial.raw st1 with
        | Except.error e => Except.error e
        | Except.ok st2 => Writer.write 13 st2
  match res with
  | Except.error e => Except.error e
  | Except.ok st => Except.ok st.1

/-- `Notification` from `write.rs`. -/
inductive Notification where
  | Rx (identifier : Identifier) (frame : CanFrame)
  | RxExt (identifier : ExtIdentifier) (frame : CanFrame)
  | RxRtr (identifier : Identifier) (len : Nat)
  | RxExtRtr (identifier : ExtIdentifier) (len : Nat)
deriving DecidableEq, Repr

/-- `Notification::encode` into a `NotificationBuf` (capacity 31):
returns the written prefix `&buf[..used]`. -/
def Notification.encode (n : Notification) : Except Error (List Nat) :=
  let st0 : List Nat × Nat := ([], MAX_NOTIF_LEN)
  let res : Except Error (List Nat × Nat) :=
    match n with
    | Notification.Rx identifier frame =>
      match Writer.write 116 st0 with  -- b't'
      | Except.error e => Except.error e
      | Except.ok st1 =>
        match Writer.write_identifier identifier st1 with
        | Except.error e => Except.error e
        | Except.ok st2 => Writer.write_frame frame st2
    | Notification.RxExt identifier frame =>
      match Writer.write 84 st0 with  -- b'T'
      | Except.error e => Except.error e
      | Except.ok st1 =>
        match Writer.write_ext_identifier identifier st1 with
        | Except.error e => Except.error e
        | Except.ok st2 => Writer.write_frame frame st2
    | Notification.RxRtr identifier len =>
      match Writer.write 114 st0 with  -- b'r'
      | Except.error e => Except.error e
      | Except.ok st1 =>
        match Writer.write_identifier identifier st1 with
        | Except.error e => Except.error e
        | Except.ok st2 => Writer.write_hex_u4 len st2
    | Notification.RxExtRtr identifier len =>
      match Writer.write 82 st0 with  -- b'R'
      | Except.error e => Except.error e
      | Except.ok st1 =>
        match Writer.write_ext_identifier identifier st1 with
        | Except.error e => Except.error e
        | Except.ok st2 => Writer.write_hex_u4 len st2
  match res with
  | Except.error e => Except.error e
  | Except.ok st => Except.ok st.1

/-- `TimestampedNotification` from `write.rs`. -/
structure TimestampedNotification where
  notif : Notification
  timestamp : Nat
deriving Repr

/-- `TimestampedNotification::new` (`timestamp` must be in `0..=0xEA5F`;
not re-validated, matching the source). -/
def TimestampedNotification.new (notif : Notification) (timestamp : Nat) :
    TimestampedNotification :=
  ⟨notif, timestamp⟩

/-- `TimestampedNotification::encode`: the inner notification, then a new
writer over `buf[used..]` appends 4 hex digits of the timestamp; returns
`&buf[..used']`. -/
def TimestampedNotification.encode (t : TimestampedNotification) :
    Except Error (List Nat) :=
  match Notification.encode t.notif with
  | Except.error e => Except.error e
  | Except.ok w =>
    match Writer.write_hex_u16 t.timestamp (w, MAX_NOTIF_LEN - w.length) with
    | Except.error e => Except.error e
    | Except.ok st => Except.ok st.1


/-! ## Derived / specification-side definitions used in theorem statements -/

/-- The `digits` hex digits of `value`, most significant nibble first,
exactly the byte sequence `Writer::write_hex` produces. -/
def hexDigits (value : Nat) : Nat → List Nat
  | 0 => []
  | d + 1 => hex ((value >>> (d * 4)) % 16) :: hexDigits value d

/-- Spec-side uppercase hex digit ("all hex fields are encoded
most-significant-nibble first, uppercase"): an independent rendering of a
nibble used to compare the source's `hex` against the spec's wording. -/
def hexUpper (d : Nat) : Nat := if d < 10 then 48 + d else 55 + d

/-- Well-formedness of a `SerialNumber` (what `SerialNumber::new`
guarantees): 4 bytes, each ASCII alphanumeric. -/
def SerialNumber.wf (s : SerialNumber) : Prop :=
  s.raw.length = 4 ∧ ∀ b ∈ s.raw, isAsciiAlphanumeric b = true

/-- Constructible `Response` values: `u8` fields below 256, serial
well-formed. -/
def Response.wf : Response → Prop
  | Response.Status flags => flags.bits < 256
  | Response.Version hardware_version software_version =>
    hardware_version < 256 ∧ software_version < 256
  | Response.Serial serial => serial.wf
  | _ => True

/-- Constructible `Notification` values: identifier in range, frame
reachable, RTR length in `0..=8` (the documented field contract). -/
def Notification.wf : Notification → Prop
  | Notification.Rx identifier frame => identifier.raw ≤ 0x7FF ∧ frame.wf
  | Notification.RxExt identifier frame => identifier.raw ≤ 0x1FFFFFFF ∧ frame.wf
  | Notification.RxRtr identifier len => identifier.raw ≤ 0x7FF ∧ len ≤ 8
  | Notification.RxExtRtr identifier len => identifier.raw ≤ 0x1FFFFFFF ∧ len ≤ 8

/-- The `Command` analogous to a `Notification` (`Rx ↦ TxStandard`,
`RxExt ↦ TxExt`, `RxRtr ↦ TxStandardRtr`, `RxExtRtr ↦ TxExtRtr`). -/
def Notification.toCommand : Notification → Command
  | Notification.Rx identifier frame => Command.TxStandard identifier frame
  | Notification.RxExt identifier frame => Command.TxExt identifier frame
  | Notification.RxRtr identifier len => Command.TxStandardRtr identifier len
  | Notification.RxExtRtr identifier len => Command.TxExtRtr identifier len

/-- A reader function is prefix-safe when, whenever it succeeds, it
consumed a determined prefix `u` of the input: running it on `u` followed
by anything else succeeds identically, and running it on any proper
prefix of `u` fails with `Eof`.  This is the key property behind the
truncated-vs-malformed distinction. -/
def PS {α : Type} (f : List Nat → Except Error (α × List Nat)) : Prop :=
  ∀ (input : List Nat) (a : α) (rest : List Nat), f input = Except.ok (a, rest) →
    ∃ u, input = u ++ rest ∧ (∀ t, f (u ++ t) = Except.ok (a, t)) ∧
      (∀ p, p <+: u → p ≠ u → f p = Except.error Error.eof)

/-- `PS` for panic-instrumented (`Option`-wrapped) reader functions. -/
def PSO {α : Type} (f : List Nat → Option (Except Error (α × List Nat))) : Prop :=
  ∀ (input : List Nat) (a : α) (rest : List Nat),
    f input = some (Except.ok (a, rest)) →
    ∃ u, input = u ++ rest ∧ (∀ t, f (u ++ t) = some (Except.ok (a, t))) ∧
      (∀ p, p <+: u → p ≠ u → f p = some (Except.error Error.eof))

/-! ## Helper lemmas: hex digits round-trip -/

/-- Bitwise-or of a nibble into a value with clear low nibble is addition. -/
theorem lor16 (a b : Nat) (hb : b < 16) : (16 * a) ||| b = 16 * a + b := by
  have h16 : (16 : Nat) * a = 2 ^ 4 * a := by norm_num
  apply Nat.eq_of_testBit_eq
  intro i
  rw [Nat.testBit_lor, h16, Nat.testBit_mul_pow_two_add a (by omega : b < 2 ^ 4) i,
    Nat.testBit_mul_pow_two]
  by_cases hi : i < 4
  · simp [hi, Nat.not_le.mpr hi]
  · simp only [if_neg hi]
    have hb' : b.testBit i = false :=
      Nat.testBit_lt_two_pow (lt_of_lt_of_le hb (by
        calc (16 : Nat) = 2 ^ 4 := by norm_num
        _ ≤ 2 ^ i := Nat.pow_le_pow_right (by norm_num) (by omega)))
    simp [hb', Nat.le_of_not_lt (by omega : ¬ i < 4)]

theorem hexDigits_length (v d : Nat) : (hexDigits v d).length = d := by
  induction d with
  | zero => rfl
  | succ d ih => simp [hexDigits, ih]

theorem hex_lt_256 (n : Nat) : hex n < 256 := by
  unfold hex; split_ifs <;> omega

theorem hex_ne_13 (n : Nat) : hex n ≠ 13 := by
  unfold hex; split_ifs <;> omega

theorem mem_hexDigits_ne_13 (v d : Nat) : ∀ b ∈ hexDigits v d, b ≠ 13 := by
  induction d with
  | zero => simp [hexDigits]
  | succ d ih =>
    simp only [hexDigits, List.mem_cons]
    rintro b (rfl | hb)
    · exact hex_ne_13 _
    · exact ih b hb

theorem unhex_hex (n : Nat) (h : n < 16) : unhex (hex n) = Except.ok n := by
  unfold unhex hex
  split_ifs <;> first | (congr 1; omega) | omega

theorem readHexGo_hexDigits :
    ∀ (d acc v : Nat) (rest : List Nat), acc * 16 ^ d + 16 ^ d ≤ 2 ^ 32 →
      Reader.readHexGo d acc (hexDigits v d ++ rest) =
        Except.ok (acc * 16 ^ d + v % 16 ^ d, rest)
  | 0, acc, v, rest, _ => by simp [Reader.readHexGo, hexDigits, Nat.mod_one]
  | d + 1, acc, v, rest, h => by
    have hp : 1 ≤ (16 : Nat) ^ d := Nat.one_le_pow _ _ (by norm_num)
    have hpow : (16 : Nat) ^ (d + 1) = 16 ^ d * 16 := pow_succ 16 d
    have h' : acc * (16 ^ d * 16) + 16 ^ d * 16 ≤ 2 ^ 32 := by rw [← hpow]; exact h
    have htop : (v >>> (d * 4)) % 16 < 16 := Nat.mod_lt _ (by norm_num)
    have h16 : acc * 16 < 2 ^ 32 := by nlinarith
    have h16' : acc * 16 < 4294967296 := lt_of_lt_of_eq h16 (by norm_num)
    have hshift : (acc <<< 4) % 4294967296 = acc * 16 := by
      have h24 : acc * 2 ^ 4 = acc * 16 := by norm_num
      rw [Nat.shiftLeft_eq, h24]
      exact Nat.mod_eq_of_lt h16'
    have hlor : (acc * 16) ||| ((v >>> (d * 4)) % 16) =
        acc * 16 + (v >>> (d * 4)) % 16 := by
      rw [mul_comm acc 16]; exact lor16 acc _ htop
    have hstep : Reader.readHexGo (d + 1) acc (hexDigits v (d + 1) ++ rest) =
        Reader.readHexGo d (acc * 16 + (v >>> (d * 4)) % 16) (hexDigits v d ++ rest) := by
      simp only [hexDigits, List.cons_append, Reader.readHexGo, Reader.read_byte,
        unhex_hex _ htop, hshift, hlor]
    rw [hstep, readHexGo_hexDigits d _ v rest (by nlinarith)]
    congr 2
    have hdiv : v >>> (d * 4) = v / 16 ^ d := by
      rw [Nat.shiftRight_eq_div_pow]
      congr 1
      rw [mul_comm d 4, pow_mul]
      norm_num
    have hmodmul : v % (16 ^ d * 16) = v % 16 ^ d + 16 ^ d * (v / 16 ^ d % 16) :=
      Nat.mod_mul
    rw [hpow, hmodmul, hdiv]
    ring

theorem read_hex_digits_hexDigits (d v : Nat) (rest : List Nat) (hd : d ≤ 8)
    (hv : v < 16 ^ d) :
    Reader.read_hex_digits d (hexDigits v d ++ rest) = Except.ok (v, rest) := by
  have hbound : (16 : Nat) ^ d ≤ 2 ^ 32 := by
    calc (16 : Nat) ^ d ≤ 16 ^ 8 := Nat.pow_le_pow_right (by norm_num) hd
    _ = 2 ^ 32 := by norm_num
  have := readHexGo_hexDigits d 0 v rest (by simpa using hbound)
  simpa [Reader.read_hex_digits, Nat.mod_eq_of_lt hv] using this

/-! ## Claim C9: CanFrame append atomicity -/

/-- C9: for every reachable `CanFrame` (`len ≤ 8`, 8-byte backing array),
`push` succeeds exactly when the length is below 8; on success it stores
the byte at index `len`, increments `len`, and leaves all earlier bytes
unchanged; at `len = 8` it returns an error and leaves the frame (length
and bytes) unchanged. -/
theorem canframe_push_atomic (f : CanFrame) (b : Nat) (hlen : f.len ≤ 8)
    (hdata : f.data.length = 8) :
    (f.len < 8 ↔ ∃ f', CanFrame.push f b = (Except.ok (), f')) ∧
    (f.len < 8 →
      (CanFrame.push f b).2.len = f.len + 1 ∧
      (CanFrame.push f b).2.data.getD f.len 0 = b ∧
      ∀ i, i < f.len → (CanFrame.push f b).2.data.getD i 0 = f.data.getD i 0) ∧
    (f.len = 8 → CanFrame.push f b = (Except.error Error.eof, f)) := by
  unfold CanFrame.push CanFrame.MAX_LENGTH
  by_cases h8 : f.len = 8
  · simp only [if_pos h8]
    refine ⟨⟨fun h => absurd h8 (by omega), fun ⟨f', hf'⟩ => by simp at hf'⟩, ?_,
      fun _ => by first | trivial | rfl⟩
    intro h
    omega
  · simp only [if_neg h8]
    refine ⟨⟨fun _ => ⟨_, rfl⟩, fun _ => by omega⟩, ?_, fun h => absurd h h8⟩
    intro hlt
    refine ⟨by first | trivial | rfl, ?_, ?_⟩
    · simp [List.getD_eq_getElem?_getD, List.getElem?_set_self, hdata, hlt]
    · intro i hi
      simp [List.getD_eq_getElem?_getD, List.getElem?_set_ne (by omega : f.len ≠ i)]

/-- Witness for C9 at a concrete frame. -/
theorem canframe_push_atomic_witness :
    CanFrame.new.len ≤ 8 ∧ (CanFrame.push CanFrame.new 5).2.data.getD 0 0 = 5 :=
  ⟨by decide, ((canframe_push_atomic CanFrame.new 5 (by decide) (by decide)).2.1
    (by decide)).2.1⟩

/-! ## Claim C8: identifier range contracts -/

/-- C8: `Identifier::from_raw` returns a value (with the raw value stored
unchanged) exactly when `raw ≤ 0x7FF`, `ExtIdentifier::from_raw` exactly
when `raw ≤ 0x1FFFFFFF`; and decoding a transmit command whose identifier
digits are valid hex but whose value is out of range fails with the
malformed (`Decode`) error. -/
theorem identifier_range_contracts :
    (∀ raw : Nat, (∃ i, Identifier.from_raw raw = some i ∧ i.as_raw = raw) ↔
      raw ≤ 0x7FF) ∧
    (∀ raw : Nat, (∃ i, ExtIdentifier.from_raw raw = some i ∧ i.as_raw = raw) ↔
      raw ≤ 0x1FFFFFFF) ∧
    (∀ (v : Nat) (rest : List Nat), 0x7FF < v → v < 16 ^ 3 →
      Command.decode (116 :: (hexDigits v 3 ++ rest)) =
        some (Except.error Error.decode) ∧
      Command.decode (114 :: (hexDigits v 3 ++ rest)) =
        some (Except.error Error.decode)) ∧
    (∀ (v : Nat) (rest : List Nat), 0x1FFFFFFF < v → v < 16 ^ 8 →
      Command.decode (84 :: (hexDigits v 8 ++ rest)) =
        some (Except.error Error.decode) ∧
      Command.decode (82 :: (hexDigits v 8 ++ rest)) =
        some (Except.error Error.decode)) := by
  refine ⟨?_, ?_, ?_, ?_⟩
  · intro raw
    unfold Identifier.from_raw
    constructor
    · rintro ⟨i, hi, hraw⟩
      by_contra h
      rw [if_pos (by omega)] at hi
      exact Option.noConfusion hi
    · intro h
      rw [if_neg (by omega)]
      exact ⟨⟨raw⟩, rfl, rfl⟩
  · intro raw
    unfold ExtIdentifier.from_raw
    constructor
    · rintro ⟨i, hi, hraw⟩
      by_contra h
      rw [if_pos (by omega)] at hi
      exact Option.noConfusion hi
    · intro h
      rw [if_neg (by omega)]
      exact ⟨⟨raw⟩, rfl, rfl⟩
  · intro v rest hlo hhi
    have hid : Reader.read_hex_identifier (hexDigits v 3 ++ rest) =
        Except.error Error.decode := by
      have h3 := read_hex_digits_hexDigits 3 v rest (by norm_num) hhi
      simp [Reader.read_hex_identifier, h3, Identifier.from_raw,
        Nat.mod_eq_of_lt (show v < 65536 by omega), hlo]
    constructor <;>
      · unfold Command.decode Command.decodeBody
        simp [Reader.read_byte, Command.dispatch, Command.decodeTxStandard,
          Command.decodeTxStandardRtr, hid]
  · intro v rest hlo hhi
    have hid : Reader.read_hex_ext_identifier (hexDigits v 8 ++ rest) =
        Except.error Error.decode := by
      have h8 := read_hex_digits_hexDigits 8 v rest (by norm_num) hhi
      simp [Reader.read_hex_ext_identifier, h8, ExtIdentifier.from_raw, hlo]
    constructor <;>
      · unfold Command.decode Command.decodeBody
        simp [Reader.read_byte, Command.dispatch, Command.decodeTxExt,
          Command.decodeTxExtRtr, hid]

/-- Witness for C8 at concrete inputs (`t8000\r`, identifier `0x800` just
out of the 11-bit range). -/
theorem identifier_range_contracts_witness :
    (∃ i, Identifier.from_raw 0x7FF = some i ∧ i.as_raw = 0x7FF) ∧
    Command.decode (116 :: (hexDigits 0x800 3 ++ [48, 13])) =
      some (Except.error Error.decode) :=
  ⟨(identifier_range_contracts.1 0x7FF).mpr (by norm_num),
   (identifier_range_contracts.2.2.1 0x800 [48, 13] (by norm_num) (by norm_num)).1⟩

/-! ## Claim C10: the decoder is total (no reachable panic) -/

/-- The frame-reading loop never hits the `unwrap` panic while the frame
has room for the remaining bytes. -/
theorem readFrameGo_total :
    ∀ (n : Nat) (f : CanFrame) (input : List Nat), f.len + n ≤ 8 →
      ∃ r, Reader.readFrameGo n f input = some r
  | 0, _, _, _ => ⟨_, rfl⟩
  | n + 1, f, input, h => by
    unfold Reader.readFrameGo
    cases hu : Reader.read_hex_u8 input with
    | error e => exact ⟨_, rfl⟩
    | ok p =>
      obtain ⟨byte, rest⟩ := p
      have hpush : CanFrame.push f byte =
          (Except.ok (), ⟨f.data.set f.len byte, f.len + 1⟩) := by
        unfold CanFrame.push CanFrame.MAX_LENGTH
        rw [if_neg (by omega)]
      simp only [hpush]
      exact readFrameGo_total n _ rest (by simp; omega)

/-- `Reader::read_frame` never panics when called with `len ≤ 8`. -/
theorem read_frame_total (len : Nat) (input : List Nat) (h : len ≤ 8) :
    ∃ r, Reader.read_frame len input = some r := by
  unfold Reader.read_frame
  rw [if_pos h]
  exact readFrameGo_total len CanFrame.new input (by simp [CanFrame.new]; omega)

/-- The `S` arm always produces a result. -/
theorem decodeSetup_total (r1 : List Nat) : ∃ r, Command.decodeSetup r1 = some r := by
  cases r1 with
  | nil => exact ⟨_, rfl⟩
  | cons b r2 =>
    unfold Command.decodeSetup
    simp only [Reader.read_byte]
    cases bitrateOfByte b <;> exact ⟨_, rfl⟩

/-- The `Z` arm always produces a result. -/
theorem decodeSetRx_total (r1 : List Nat) : ∃ r, Command.decodeSetRx r1 = some r := by
  cases r1 with
  | nil => exact ⟨_, rfl⟩
  | cons b r2 =>
    unfold Command.decodeSetRx
    simp only [Reader.read_byte]
    cases tsFlagOfByte b <;> exact ⟨_, rfl⟩

/-- The `t` arm never panics: `read_frame` is only called with `len ≤ 8`. -/
theorem decodeTxStandard_total (r1 : List Nat) :
    ∃ r, Command.decodeTxStandard r1 = some r := by
  unfold Command.decodeTxStandard
  cases hid : Reader.read_hex_identifier r1 with
  | error e => exact ⟨_, rfl⟩
  | ok p =>
    obtain ⟨identifier, r2⟩ := p
    dsimp only
    cases hu4 : Reader.read_hex_u4 r2 with
    | error e => exact ⟨_, rfl⟩
    | ok q =>
      obtain ⟨len, r3⟩ := q
      dsimp only
      by_cases hlen : len > 8
      · rw [if_pos hlen]; exact ⟨_, rfl⟩
      · rw [if_neg hlen]
        obtain ⟨r, hr⟩ := read_frame_total len r3 (by omega)
        rw [hr]
        cases r <;> exact ⟨_, rfl⟩

/-- The `T` arm never panics: `read_frame` is only called with `len ≤ 8`. -/
theorem decodeTxExt_total (r1 : List Nat) :
    ∃ r, Command.decodeTxExt r1 = some r := by
  unfold Command.decodeTxExt
  cases hid : Reader.read_hex_ext_identifier r1 with
  | error e => exact ⟨_, rfl⟩
  | ok p =>
    obtain ⟨identifier, r2⟩ := p
    dsimp only
    cases hu4 : Reader.read_hex_u4 r2 with
    | error e => exact ⟨_, rfl⟩
    | ok q =>
      obtain ⟨len, r3⟩ := q
      dsimp only
      by_cases hlen : len > 8
      · rw [if_pos hlen]; exact ⟨_, rfl⟩
      · rw [if_neg hlen]
        obtain ⟨r, hr⟩ := read_frame_total len r3 (by omega)
        rw [hr]
        cases r <;> exact ⟨_, rfl⟩

/-- The `r` arm always produces a result. -/
theorem decodeTxStandardRtr_total (r1 : List Nat) :
    ∃ r, Command.decodeTxStandardRtr r1 = some r := by
  unfold Command.decodeTxStandardRtr
  cases hid : Reader.read_hex_identifier r1 with
  | error e => exact ⟨_, rfl⟩
  | ok p =>
    obtain ⟨identifier, r2⟩ := p
    dsimp only
    cases hu4 : Reader.read_hex_u4 r2 with
    | error e => exact ⟨_, rfl⟩
    | ok q =>
      obtain ⟨len, r3⟩ := q
      dsimp only
      split_ifs <;> exact ⟨_, rfl⟩

/-- The `R` arm always produces a result. -/
theorem decodeTxExtRtr_total (r1 : List Nat) :
    ∃ r, Command.decodeTxExtRtr r1 = some r := by
  unfold Command.decodeTxExtRtr
  cases hid : Reader.read_hex_ext_identifier r1 with
  | error e => exact ⟨_, rfl⟩
  | ok p =>
    obtain ⟨identifier, r2⟩ := p
    dsimp only
    cases hu4 : Reader.read_hex_u4 r2 with
    | error e => exact ⟨_, rfl⟩
    | ok q =>
      obtain ⟨len, r3⟩ := q
      dsimp only
      split_ifs <;> exact ⟨_, rfl⟩

set_option maxHeartbeats 1600000

/-- The opcode dispatch always produces a result. -/
theorem dispatch_total (op : Nat) (r1 : List Nat) :
    ∃ r, Command.dispatch op r1 = some r := by
  unfold Command.dispatch
  split_ifs
  · exact decodeSetup_total r1
  · exact ⟨_, rfl⟩
  · exact ⟨_, rfl⟩
  · exact decodeTxStandard_total r1
  · exact decodeTxExt_total r1
  · exact decodeTxStandardRtr_total r1
  · exact decodeTxExtRtr_total r1
  · exact ⟨_, rfl⟩
  · exact ⟨_, rfl⟩
  · exact ⟨_, rfl⟩
  · exact decodeSetRx_total r1
  · exact ⟨_, rfl⟩

/-- `Command::decodeBody` always produces a result. -/
theorem decodeBody_total (input : List Nat) :
    ∃ r, Command.decodeBody input = some r := by
  cases input with
  | nil => exact ⟨_, rfl⟩
  | cons op r1 => exact dispatch_total op r1

/-- C10: `Command::decode` is total on arbitrary input: it always returns
`Ok` or an `Eof`/`Decode` error and never reaches the internal assertion
or the `unwrap` in `read_frame` (the panic outcome `none`). -/
theorem decode_total (input : List Nat) : ∃ r, Command.decode input = some r := by
  unfold Command.decode
  obtain ⟨rb, hrb⟩ := decodeBody_total input
  rw [hrb]
  cases rb with
  | error e => exact ⟨_, rfl⟩
  | ok p =>
    obtain ⟨cmd, rest⟩ := p
    cases rest with
    | nil => exact ⟨_, rfl⟩
    | cons b rest2 =>
      simp only [Reader.read_byte]
      split_ifs <;> exact ⟨_, rfl⟩

/-! ## Helper lemmas: writer success shapes -/

theorem Writer.write_ok (b : Nat) (w : List Nat) (cap : Nat) (h : 1 ≤ cap) :
    Writer.write b (w, cap) = Except.ok (w ++ [b], cap - 1) := by
  cases cap with
  | zero => omega
  | succ n => rfl

theorem Writer.write_hex_ok :
    ∀ (d v : Nat) (w : List Nat) (cap : Nat), d ≤ cap →
      Writer.write_hex v d (w, cap) = Except.ok (w ++ hexDigits v d, cap - d)
  | 0, v, w, cap, _ => by simp [Writer.write_hex, hexDigits]
  | d + 1, v, w, cap, h => by
    rw [show Writer.write_hex v (d + 1) (w, cap) =
        (match Writer.write (hex ((v >>> (d * 4)) % 16)) (w, cap) with
         | Except.error e => Except.error e
         | Except.ok st' => Writer.write_hex v d st') from rfl,
      Writer.write_ok _ _ _ (by omega)]
    dsimp only
    rw [Writer.write_hex_ok d v _ _ (by omega)]
    simp [hexDigits]
    omega

theorem Writer.writeFrameBytes_ok :
    ∀ (l : List Nat) (w : List Nat) (cap : Nat), 2 * l.length ≤ cap →
      Writer.writeFrameBytes l (w, cap) =
        Except.ok (w ++ (l.map (fun b => hexDigits b 2)).flatten, cap - 2 * l.length)
  | [], w, cap, _ => by simp [Writer.writeFrameBytes]
  | b :: bs, w, cap, h => by
    rw [show Writer.writeFrameBytes (b :: bs) (w, cap) =
        (match Writer.write_hex_u8 b (w, cap) with
         | Except.error e => Except.error e
         | Except.ok st' => Writer.writeFrameBytes bs st') from rfl]
    unfold Writer.write_hex_u8
    rw [Writer.write_hex_ok 2 b w cap (by simp at h; omega)]
    dsimp only
    rw [Writer.writeFrameBytes_ok bs _ _ (by simp at h ⊢; omega)]
    simp only [List.map_cons, List.flatten, List.append_assoc, List.length_cons]
    congr 1
    simp at h ⊢
    omega

theorem Writer.writeSerialBytes_ok :
    ∀ (l : List Nat) (w : List Nat) (cap : Nat), l.length ≤ cap →
      Writer.writeSerialBytes l (w, cap) = Except.ok (w ++ l, cap - l.length)
  | [], w, cap, _ => by simp [Writer.writeSerialBytes]
  | b :: bs, w, cap, h => by
    rw [show Writer.writeSerialBytes (b :: bs) (w, cap) =
        (match Writer.write b (w, cap) with
         | Except.error e => Except.error e
         | Except.ok st' => Writer.writeSerialBytes bs st') from rfl,
      Writer.write_ok _ _ _ (by simp at h; omega)]
    dsimp only
    rw [Writer.writeSerialBytes_ok bs _ _ (by simp at h ⊢; omega)]
    simp at h ⊢
    omega

theorem Writer.write_frame_ok (f : CanFrame) (w : List Nat) (cap : Nat)
    (hl : f.len ≤ 8) (hd : f.data.length = 8) (hcap : 1 + 2 * f.len ≤ cap) :
    Writer.write_frame f (w, cap) =
      Except.ok (w ++ hexDigits f.len 1 ++
        ((f.data.take f.len).map (fun b => hexDigits b 2)).flatten,
        cap - 1 - 2 * f.len) := by
  unfold Writer.write_frame Writer.write_hex_u4
  rw [Writer.write_hex_ok 1 f.len w cap (by omega)]
  have htake : (f.data.take f.len).length = f.len := by
    rw [List.length_take, hd]
    omega
  dsimp only
  rw [Writer.writeFrameBytes_ok _ _ _ (by rw [htake]; omega)]
  rw [htake]

/-! ## Claim C7: Response encoding is total and byte-exact -/

theorem hex_eq_hexUpper (d : Nat) (h : d < 16) : hex d = hexUpper d := by
  unfold hex hexUpper
  split_ifs <;> omega

/-- `hexDigits` of a byte are its two uppercase nibble digits. -/
theorem hexDigits_two (v : Nat) (h : v < 256) :
    hexDigits v 2 = [hexUpper (v / 16), hexUpper (v % 16)] := by
  have h4 : v >>> (1 * 4) = v / 16 := by
    rw [Nat.shiftRight_eq_div_pow]
  have h0 : v >>> (0 * 4) = v := by
    rw [Nat.zero_mul, Nat.shiftRight_zero]
  show [hex ((v >>> (1 * 4)) % 16), hex ((v >>> (0 * 4)) % 16)] = _
  rw [h4, h0, Nat.mod_eq_of_lt (show v / 16 < 16 by omega),
    hex_eq_hexUpper _ (by omega), hex_eq_hexUpper _ (Nat.mod_lt _ (by norm_num))]

theorem response_encode_Status (s : Status) (hs : s.bits < 256) :
    Response.encode (Response.Status s) =
      Except.ok [70, hexUpper (s.bits / 16), hexUpper (s.bits % 16), 13] := by
  unfold Response.encode Writer.write_hex_u8
  dsimp only
  rw [Writer.write_ok _ _ _ (by norm_num [MAX_RESPONSE_LEN])]
  dsimp only
  rw [Writer.write_hex_ok 2 _ _ _ (by norm_num [MAX_RESPONSE_LEN])]
  dsimp only
  rw [Writer.write_ok _ _ _ (by simp [MAX_RESPONSE_LEN])]
  rw [hexDigits_two _ hs]
  rfl

theorem response_encode_Version (hv sv : Nat) (h1 : hv < 256) (h2 : sv < 256) :
    Response.encode (Response.Version hv sv) =
      Except.ok [86, hexUpper (hv / 16), hexUpper (hv % 16),
        hexUpper (sv / 16), hexUpper (sv % 16), 13] := by
  unfold Response.encode Writer.write_hex_u8
  dsimp only
  rw [Writer.write_ok _ _ _ (by norm_num [MAX_RESPONSE_LEN])]
  dsimp only
  rw [Writer.write_hex_ok 2 _ _ _ (by norm_num [MAX_RESPONSE_LEN])]
  dsimp only
  rw [Writer.write_hex_ok 2 _ _ _ (by simp [MAX_RESPONSE_LEN])]
  dsimp only
  rw [Writer.write_ok _ _ _ (by simp [MAX_RESPONSE_LEN])]
  rw [hexDigits_two _ h1, hexDigits_two _ h2]
  rfl

theorem response_encode_Serial (sn : SerialNumber) (hsn : sn.wf) :
    Response.encode (Response.Serial sn) = Except.ok (78 :: (sn.raw ++ [13])) := by
  obtain ⟨hlen, _⟩ := hsn
  unfold Response.encode
  dsimp only
  rw [Writer.write_ok _ _ _ (by norm_num [MAX_RESPONSE_LEN])]
  dsimp only
  rw [Writer.writeSerialBytes_ok _ _ _ (by simp [MAX_RESPONSE_LEN, hlen])]
  dsimp only
  rw [Writer.write_ok _ _ _ (by simp [MAX_RESPONSE_LEN, hlen])]
  rfl

/-- Every well-formed `Response` encodes successfully into at most 6 bytes. -/
theorem response_encode_wf (r : Response) (hr : r.wf) :
    ∃ out, Response.encode r = Except.ok out ∧ out.length ≤ MAX_RESPONSE_LEN := by
  cases r with
  | Error => exact ⟨[7], rfl, by norm_num [MAX_RESPONSE_LEN]⟩
  | Ack => exact ⟨[13], rfl, by norm_num [MAX_RESPONSE_LEN]⟩
  | TxAck => exact ⟨[122, 13], rfl, by norm_num [MAX_RESPONSE_LEN]⟩
  | ExtTxAck => exact ⟨[90, 13], rfl, by norm_num [MAX_RESPONSE_LEN]⟩
  | Status s => exact ⟨_, response_encode_Status s hr, by norm_num [MAX_RESPONSE_LEN]⟩
  | Version hv sv =>
    exact ⟨_, response_encode_Version hv sv hr.1 hr.2, by norm_num [MAX_RESPONSE_LEN]⟩
  | Serial sn =>
    refine ⟨_, response_encode_Serial sn hr, ?_⟩
    simp [MAX_RESPONSE_LEN, hr.1]

/-- C7: `Response::encode` renders each current variant into the exact
documented byte sequence (at most 6 bytes, hex fields
most-significant-nibble first and uppercase): `Error` is the bare byte 7
with no terminator, `Ack` a lone CR, `TxAck` is `z` CR, `ExtTxAck` is `Z`
CR, `Status` is `F` + 2 hex digits + CR, `Version` is `V` + 2 + 2 hex
digits + CR, `Serial` is `N` + the 4 raw serial bytes + CR; and encoding
always succeeds with at most 6 bytes written. -/
theorem response_encode_exact :
    Response.encode Response.Error = Except.ok [7] ∧
    Response.encode Response.Ack = Except.ok [13] ∧
    Response.encode Response.TxAck = Except.ok [122, 13] ∧
    Response.encode Response.ExtTxAck = Except.ok [90, 13] ∧
    (∀ s : Status, s.bits < 256 →
      Response.encode (Response.Status s) =
        Except.ok [70, hexUpper (s.bits / 16), hexUpper (s.bits % 16), 13]) ∧
    (∀ hv sv : Nat, hv < 256 → sv < 256 →
      Response.encode (Response.Version hv sv) =
        Except.ok [86, hexUpper (hv / 16), hexUpper (hv % 16),
          hexUpper (sv / 16), hexUpper (sv % 16), 13]) ∧
    (∀ sn : SerialNumber, sn.wf →
      Response.encode (Response.Serial sn) = Except.ok (78 :: (sn.raw ++ [13]))) ∧
    (∀ r : Response, r.wf → ∃ out, Response.encode r = Except.ok out ∧
      out.length ≤ MAX_RESPONSE_LEN) := by
  exact ⟨rfl, rfl, rfl, rfl, response_encode_Status, response_encode_Version,
    response_encode_Serial, response_encode_wf⟩

/-- Witness for C7 at concrete inputs (`F01\r` and `NTEST\r` from the
crate's own tests). -/
theorem response_encode_exact_witness :
    Response.encode (Response.Status ⟨1⟩) =
      Except.ok [70, hexUpper (1 / 16), hexUpper (1 % 16), 13] ∧
    Response.encode (Response.Serial ⟨[84, 69, 83, 84]⟩) =
      Except.ok (78 :: ([84, 69, 83, 84] ++ [13])) :=
  ⟨response_encode_exact.2.2.2.2.1 ⟨1⟩ (by norm_num),
   response_encode_exact.2.2.2.2.2.2.1 ⟨[84, 69, 83, 84]⟩ ⟨rfl, by decide⟩⟩

/-! ## Notification encode shapes -/

theorem notification_encode_Rx (id : Identifier) (f : CanFrame)
    (hd : f.data.length = 8) (hl : f.len ≤ 8) :
    Notification.encode (Notification.Rx id f) =
      Except.ok (116 :: (hexDigits id.raw 3 ++ (hexDigits f.len 1 ++
        ((f.data.take f.len).map (fun b => hexDigits b 2)).flatten))) := by
  unfold Notification.encode Writer.write_identifier
  dsimp only
  rw [Writer.write_ok _ _ _ (by norm_num [MAX_NOTIF_LEN])]
  dsimp only
  rw [Identifier.as_raw, Writer.write_hex_ok 3 _ _ _ (by norm_num [MAX_NOTIF_LEN])]
  dsimp only
  rw [Writer.write_frame_ok f _ _ hl hd (by norm_num [MAX_NOTIF_LEN]; omega)]
  simp

theorem notification_encode_RxExt (id : ExtIdentifier) (f : CanFrame)
    (hd : f.data.length = 8) (hl : f.len ≤ 8) :
    Notification.encode (Notification.RxExt id f) =
      Except.ok (84 :: (hexDigits id.raw 8 ++ (hexDigits f.len 1 ++
        ((f.data.take f.len).map (fun b => hexDigits b 2)).flatten))) := by
  unfold Notification.encode Writer.write_ext_identifier
  dsimp only
  rw [Writer.write_ok _ _ _ (by norm_num [MAX_NOTIF_LEN])]
  dsimp only
  rw [ExtIdentifier.as_raw, Writer.write_hex_ok 8 _ _ _ (by norm_num [MAX_NOTIF_LEN])]
  dsimp only
  rw [Writer.write_frame_ok f _ _ hl hd (by norm_num [MAX_NOTIF_LEN]; omega)]
  simp

theorem notification_encode_RxRtr (id : Identifier) (len : Nat) :
    Notification.encode (Notification.RxRtr id len) =
      Except.ok (114 :: (hexDigits id.raw 3 ++ hexDigits len 1)) := by
  unfold Notification.encode Writer.write_identifier Writer.write_hex_u4
  dsimp only
  rw [Writer.write_ok _ _ _ (by norm_num [MAX_NOTIF_LEN])]
  dsimp only
  rw [Identifier.as_raw, Writer.write_hex_ok 3 _ _ _ (by norm_num [MAX_NOTIF_LEN])]
  dsimp only
  rw [Writer.write_hex_ok 1 _ _ _ (by norm_num [MAX_NOTIF_LEN])]
  simp

theorem notification_encode_RxExtRtr (id : ExtIdentifier) (len : Nat) :
    Notification.encode (Notification.RxExtRtr id len) =
      Except.ok (82 :: (hexDigits id.raw 8 ++ hexDigits len 1)) := by
  unfold Notification.encode Writer.write_ext_identifier Writer.write_hex_u4
  dsimp only
  rw [Writer.write_ok _ _ _ (by norm_num [MAX_NOTIF_LEN])]
  dsimp only
  rw [ExtIdentifier.as_raw, Writer.write_hex_ok 8 _ _ _ (by norm_num [MAX_NOTIF_LEN])]
  dsimp only
  rw [Writer.write_hex_ok 1 _ _ _ (by norm_num [MAX_NOTIF_LEN])]
  simp

/-! ## Claim C4 (corrected): notification encodes carry no CR terminator -/

theorem join_pairs_ne_13 (l : List Nat) :
    ∀ b ∈ (l.map (fun x => hexDigits x 2)).flatten, b ≠ 13 := by
  induction l with
  | nil => simp
  | cons x xs ih =>
    simp only [List.map_cons, List.flatten_cons, List.mem_append]
    rintro b (hb | hb)
    · exact mem_hexDigits_ne_13 x 2 b hb
    · exact ih b hb

theorem join_pairs_length (l : List Nat) :
    ((l.map (fun x => hexDigits x 2)).flatten).length = 2 * l.length := by
  induction l with
  | nil => rfl
  | cons x xs ih =>
    simp only [List.map_cons, List.flatten_cons, List.length_append, ih,
      hexDigits_length, List.length_cons]
    omega

/-- Every well-formed `Notification` encodes successfully, contains no CR
byte, and is at most 26 bytes long. -/
theorem notification_encode_wf (n : Notification) (hn : n.wf) :
    ∃ out, Notification.encode n = Except.ok out ∧
      (∀ b ∈ out, b ≠ 13) ∧ out.length ≤ 26 := by
  cases n with
  | Rx id f =>
    obtain ⟨hid, hd, hl, _, _⟩ := hn
    refine ⟨_, notification_encode_Rx id f hd hl, ?_, ?_⟩
    · intro b hb
      simp only [List.mem_cons, List.mem_append] at hb
      rcases hb with rfl | hb | hb | hb
      · omega
      · exact mem_hexDigits_ne_13 _ _ b hb
      · exact mem_hexDigits_ne_13 _ _ b hb
      · exact join_pairs_ne_13 _ b hb
    · have htake : (f.data.take f.len).length = f.len := by
        rw [List.length_take, hd]; omega
      simp only [List.length_cons, List.length_append, hexDigits_length,
        join_pairs_length, htake]
      omega
  | RxExt id f =>
    obtain ⟨hid, hd, hl, _, _⟩ := hn
    refine ⟨_, notification_encode_RxExt id f hd hl, ?_, ?_⟩
    · intro b hb
      simp only [List.mem_cons, List.mem_append] at hb
      rcases hb with rfl | hb | hb | hb
      · omega
      · exact mem_hexDigits_ne_13 _ _ b hb
      · exact mem_hexDigits_ne_13 _ _ b hb
      · exact join_pairs_ne_13 _ b hb
    · have htake : (f.data.take f.len).length = f.len := by
        rw [List.length_take, hd]; omega
      simp only [List.length_cons, List.length_append, hexDigits_length,
        join_pairs_length, htake]
      omega
  | RxRtr id len =>
    refine ⟨_, notification_encode_RxRtr id len, ?_, ?_⟩
    · intro b hb
      simp only [List.mem_cons, List.mem_append] at hb
      rcases hb with rfl | hb | hb
      · omega
      · exact mem_hexDigits_ne_13 _ _ b hb
      · exact mem_hexDigits_ne_13 _ _ b hb
    · simp [hexDigits_length]
  | RxExtRtr id len =>
    refine ⟨_, notification_encode_RxExtRtr id len, ?_, ?_⟩
    · intro b hb
      simp only [List.mem_cons, List.mem_append] at hb
      rcases hb with rfl | hb | hb
      · omega
      · exact mem_hexDigits_ne_13 _ _ b hb
      · exact mem_hexDigits_ne_13 _ _ b hb
    · simp [hexDigits_length]

/-- Every well-formed timestamped notification encodes successfully, with
no CR byte and at most 30 bytes. -/
theorem timestamped_encode_wf (n : Notification) (ts : Nat) (hn : n.wf) :
    ∃ out, TimestampedNotification.encode ⟨n, ts⟩ = Except.ok out ∧
      (∀ b ∈ out, b ≠ 13) ∧ out.length ≤ 30 := by
  obtain ⟨w, hw, hw13, hwlen⟩ := notification_encode_wf n hn
  unfold TimestampedNotification.encode Writer.write_hex_u16
  rw [hw]
  dsimp only
  rw [Writer.write_hex_ok 4 _ _ _ (by norm_num [MAX_NOTIF_LEN]; omega)]
  refine ⟨_, rfl, ?_, ?_⟩
  · intro b hb
    rcases List.mem_append.mp hb with hb | hb
    · exact hw13 b hb
    · exact mem_hexDigits_ne_13 _ _ b hb
  · simp [hexDigits_length]
    omega

/-- C4 counterexample: the encoding of the notification
`Rx { id: 0x100, frame: [0x11, 0x33] }` (a test vector of the crate) is
`t10021133` with no trailing CR, refuting "every encoded notification is
CR-terminated". -/
theorem notification_encode_cr_counterexample :
    Notification.encode (Notification.Rx ⟨0x100⟩ (CanFrame.fromList [0x11, 0x33])) =
      Except.ok [116, 49, 48, 48, 50, 49, 49, 51, 51] ∧
    [(116 : Nat), 49, 48, 48, 50, 49, 49, 51, 51].getLast? ≠ some 13 := by
  constructor
  · rfl
  · decide

/-- C4 (amended): encoded notifications never contain the CR byte at all
(`Notification::encode` and `TimestampedNotification::encode` write no
terminator); a plain notification is at most 26 bytes, a timestamped one
at most 30 bytes - one below the 31-byte buffer capacity `MAX_NOTIF_LEN` -
and the 30-byte maximum is attained. -/
theorem notification_encode_amended :
    (∀ n : Notification, n.wf → ∃ out, Notification.encode n = Except.ok out ∧
      (∀ b ∈ out, b ≠ 13) ∧ out.length ≤ 26) ∧
    (∀ (n : Notification) (ts : Nat), n.wf →
      ∃ out, TimestampedNotification.encode ⟨n, ts⟩ = Except.ok out ∧
        (∀ b ∈ out, b ≠ 13) ∧ out.length ≤ 30) ∧
    MAX_NOTIF_LEN = 31 ∧
    (∃ out, TimestampedNotification.encode
        ⟨Notification.RxExt ⟨0x1FFFFFFF⟩ (CanFrame.fromList [1, 2, 3, 4, 5, 6, 7, 8]),
          0xEA5F⟩ = Except.ok out ∧ out.length = 30) := by
  exact ⟨notification_encode_wf, timestamped_encode_wf, rfl, ⟨_, rfl, rfl⟩⟩

/-- Witness for the amended C4 at the longest constructible timestamped
notification. -/
theorem notification_encode_amended_witness :
    ∃ out, TimestampedNotification.encode
        ⟨Notification.RxExt ⟨0x1FFFFFFF⟩ (CanFrame.fromList [1, 2, 3, 4, 5, 6, 7, 8]),
          0xEA5F⟩ = Except.ok out ∧ (∀ b ∈ out, b ≠ 13) ∧ out.length ≤ 30 :=
  notification_encode_amended.2.1 _ 0xEA5F
    ⟨by norm_num, by unfold CanFrame.wf; exact ⟨rfl, by decide, rfl, by decide⟩⟩

/-! ## Reader round-trip lemmas (decode of encoder output) -/

theorem read_hex_identifier_hexDigits (id : Identifier) (rest : List Nat)
    (h : id.raw ≤ 0x7FF) :
    Reader.read_hex_identifier (hexDigits id.raw 3 ++ rest) = Except.ok (id, rest) := by
  unfold Reader.read_hex_identifier
  rw [read_hex_digits_hexDigits 3 id.raw rest (by norm_num) (by norm_num; omega)]
  dsimp only
  rw [Nat.mod_eq_of_lt (show id.raw < 65536 by omega)]
  unfold Identifier.from_raw
  rw [if_neg (by omega)]

theorem read_hex_ext_identifier_hexDigits (id : ExtIdentifier) (rest : List Nat)
    (h : id.raw ≤ 0x1FFFFFFF) :
    Reader.read_hex_ext_identifier (hexDigits id.raw 8 ++ rest) =
      Except.ok (id, rest) := by
  unfold Reader.read_hex_ext_identifier
  rw [read_hex_digits_hexDigits 8 id.raw rest (by norm_num) (by norm_num; omega)]
  dsimp only
  unfold ExtIdentifier.from_raw
  rw [if_neg (by omega)]

theorem read_hex_u4_hexDigits (v : Nat) (rest : List Nat) (h : v < 16) :
    Reader.read_hex_u4 (hexDigits v 1 ++ rest) = Except.ok (v, rest) := by
  unfold Reader.read_hex_u4
  rw [read_hex_digits_hexDigits 1 v rest (by norm_num) (by norm_num; omega)]
  dsimp only
  rw [Nat.mod_eq_of_lt (by omega)]

theorem read_hex_u8_hexDigits (v : Nat) (rest : List Nat) (h : v < 256) :
    Reader.read_hex_u8 (hexDigits v 2 ++ rest) = Except.ok (v, rest) := by
  unfold Reader.read_hex_u8
  rw [read_hex_digits_hexDigits 2 v rest (by norm_num) (by norm_num; omega)]
  dsimp only
  rw [Nat.mod_eq_of_lt (by omega)]

/-- The frame-reading loop applied to the output of `write_frame`'s byte
loop reconstructs the frame, seen through its explicit decomposition into
a filled prefix and a zero tail. -/
theorem readFrameGo_pairs :
    ∀ (l l0 : List Nat) (rest : List Nat), (∀ b ∈ l, b < 256) →
      l0.length + l.length ≤ 8 →
      Reader.readFrameGo l.length
        ⟨l0 ++ List.replicate (8 - l0.length) 0, l0.length⟩
        ((l.map (fun b => hexDigits b 2)).flatten ++ rest) =
        some (Except.ok
          (⟨(l0 ++ l) ++ List.replicate (8 - (l0.length + l.length)) 0,
            l0.length + l.length⟩, rest))
  | [], l0, rest, _, _ => by simp [Reader.readFrameGo]
  | b :: bs, l0, rest, hlt, hlen => by
    have hb : b < 256 := hlt b (List.mem_cons_self b bs)
    rw [show (((b :: bs).map (fun x => hexDigits x 2)).flatten ++ rest) =
        hexDigits b 2 ++ ((bs.map (fun x => hexDigits x 2)).flatten ++ rest) by
      simp [List.flatten_cons]]
    rw [show (b :: bs).length = bs.length + 1 from rfl]
    rw [show Reader.readFrameGo (bs.length + 1)
          ⟨l0 ++ List.replicate (8 - l0.length) 0, l0.length⟩
          (hexDigits b 2 ++ ((bs.map (fun x => hexDigits x 2)).flatten ++ rest)) =
        (match Reader.read_hex_u8
            (hexDigits b 2 ++ ((bs.map (fun x => hexDigits x 2)).flatten ++ rest)) with
         | Except.error e => some (Except.error e)
         | Except.ok (byte, rest') =>
           match CanFrame.push ⟨l0 ++ List.replicate (8 - l0.length) 0, l0.length⟩ byte with
           | (Except.error _, _) => none
           | (Except.ok _, frame') => Reader.readFrameGo bs.length frame' rest') from rfl]
    rw [read_hex_u8_hexDigits b _ hb]
    dsimp only
    have hpush : CanFrame.push ⟨l0 ++ List.replicate (8 - l0.length) 0, l0.length⟩ b =
        (Except.ok (), ⟨(l0 ++ [b]) ++ List.replicate (8 - (l0.length + 1)) 0,
          l0.length + 1⟩) := by
      unfold CanFrame.push CanFrame.MAX_LENGTH
      rw [if_neg (by simp at hlen ⊢; omega)]
      have hrep : List.replicate (8 - l0.length) (0 : Nat) =
          0 :: List.replicate (8 - (l0.length + 1)) 0 := by
        rw [show 8 - l0.length = (8 - (l0.length + 1)) + 1 by simp at hlen ⊢; omega]
        rfl
      simp only [hrep, List.set_append, if_neg (by omega : ¬ l0.length < l0.length)]
      simp
    rw [hpush]
    dsimp only
    have := readFrameGo_pairs bs (l0 ++ [b]) rest
      (fun x hx => hlt x (List.mem_cons_of_mem b hx)) (by simp at hlen ⊢; omega)
    simp only [List.length_append, List.length_cons, List.length_nil] at this ⊢
    rw [show l0.length + 1 + bs.length = l0.length + (bs.length + 1) by omega] at this
    rw [show (l0 ++ [b]) ++ bs = l0 ++ b :: bs by simp] at this
    exact this

/-- `read_frame` applied to the hex pairs written by `write_frame`
reconstructs the original (well-formed) frame exactly. -/
theorem read_frame_roundtrip (f : CanFrame) (rest : List Nat) (hf : f.wf) :
    Reader.read_frame f.len
        (((f.data.take f.len).map (fun b => hexDigits b 2)).flatten ++ rest) =
      some (Except.ok (f, rest)) := by
  obtain ⟨hd, hl, hdrop, hlt⟩ := hf
  unfold Reader.read_frame
  rw [if_pos hl]
  have htake : (f.data.take f.len).length = f.len := by
    rw [List.length_take, hd]; omega
  have h0 := readFrameGo_pairs (f.data.take f.len) [] rest
    (fun b hb => hlt b (List.take_subset _ _ hb))
    (by simp only [List.length_nil, htake]; omega)
  simp only [List.nil_append, List.length_nil, Nat.zero_add, Nat.sub_zero, htake] at h0
  have hnew : CanFrame.new = (⟨List.replicate 8 0, 0⟩ : CanFrame) := rfl
  have hdata : f.data.take f.len ++ List.replicate (8 - f.len) 0 = f.data := by
    conv_rhs => rw [← List.take_append_drop f.len f.data]
    rw [hdrop]
  rw [hnew]
  rw [hdata] at h0
  exact h0

/-! ## Per-variant decode-of-encode lemmas -/

theorem decode_encode_Rx (id : Identifier) (f : CanFrame)
    (hid : id.raw ≤ 0x7FF) (hf : f.wf) :
    Command.decode ((116 :: (hexDigits id.raw 3 ++ (hexDigits f.len 1 ++
        ((f.data.take f.len).map (fun b => hexDigits b 2)).flatten))) ++ [13]) =
      some (Except.ok (Command.TxStandard id f)) := by
  have hlen8 : f.len ≤ 8 := hf.2.1
  have hbody : Command.decodeBody ((116 :: (hexDigits id.raw 3 ++ (hexDigits f.len 1 ++
        ((f.data.take f.len).map (fun b => hexDigits b 2)).flatten))) ++ [13]) =
      some (Except.ok (Command.TxStandard id f, [13])) := by
    rw [show ((116 :: (hexDigits id.raw 3 ++ (hexDigits f.len 1 ++
          ((f.data.take f.len).map (fun b => hexDigits b 2)).flatten))) ++ [13]) =
        116 :: (hexDigits id.raw 3 ++ (hexDigits f.len 1 ++
          (((f.data.take f.len).map (fun b => hexDigits b 2)).flatten ++ [13])))
      by simp]
    rw [show ∀ X, Command.decodeBody (116 :: X) = Command.decodeTxStandard X
      from fun X => rfl]
    unfold Command.decodeTxStandard
    rw [read_hex_identifier_hexDigits id _ hid]
    dsimp only
    rw [read_hex_u4_hexDigits f.len _ (by omega)]
    dsimp only
    rw [if_neg (by omega : ¬ f.len > 8)]
    rw [read_frame_roundtrip f [13] hf]
  unfold Command.decode
  rw [hbody]
  rfl

theorem decode_encode_RxExt (id : ExtIdentifier) (f : CanFrame)
    (hid : id.raw ≤ 0x1FFFFFFF) (hf : f.wf) :
    Command.decode ((84 :: (hexDigits id.raw 8 ++ (hexDigits f.len 1 ++
        ((f.data.take f.len).map (fun b => hexDigits b 2)).flatten))) ++ [13]) =
      some (Except.ok (Command.TxExt id f)) := by
  have hlen8 : f.len ≤ 8 := hf.2.1
  have hbody : Command.decodeBody ((84 :: (hexDigits id.raw 8 ++ (hexDigits f.len 1 ++
        ((f.data.take f.len).map (fun b => hexDigits b 2)).flatten))) ++ [13]) =
      some (Except.ok (Command.TxExt id f, [13])) := by
    rw [show ((84 :: (hexDigits id.raw 8 ++ (hexDigits f.len 1 ++
          ((f.data.take f.len).map (fun b => hexDigits b 2)).flatten))) ++ [13]) =
        84 :: (hexDigits id.raw 8 ++ (hexDigits f.len 1 ++
          (((f.data.take f.len).map (fun b => hexDigits b 2)).flatten ++ [13])))
      by simp]
    rw [show ∀ X, Command.decodeBody (84 :: X) = Command.decodeTxExt X
      from fun X => rfl]
    unfold Command.decodeTxExt
    rw [read_hex_ext_identifier_hexDigits id _ hid]
    dsimp only
    rw [read_hex_u4_hexDigits f.len _ (by omega)]
    dsimp only
    rw [if_neg (by omega : ¬ f.len > 8)]
    rw [read_frame_roundtrip f [13] hf]
  unfold Command.decode
  rw [hbody]
  rfl

theorem decode_encode_RxRtr (id : Identifier) (len : Nat)
    (hid : id.raw ≤ 0x7FF) (hlen : len ≤ 8) :
    Command.decode ((114 :: (hexDigits id.raw 3 ++ hexDigits len 1)) ++ [13]) =
      some (Except.ok (Command.TxStandardRtr id len)) := by
  have hbody : Command.decodeBody ((114 :: (hexDigits id.raw 3 ++ hexDigits len 1)) ++ [13]) =
      some (Except.ok (Command.TxStandardRtr id len, [13])) := by
    rw [show ((114 :: (hexDigits id.raw 3 ++ hexDigits len 1)) ++ [13]) =
        114 :: (hexDigits id.raw 3 ++ (hexDigits len 1 ++ [13])) by simp]
    rw [show ∀ X, Command.decodeBody (114 :: X) = Command.decodeTxStandardRtr X
      from fun X => rfl]
    unfold Command.decodeTxStandardRtr
    rw [read_hex_identifier_hexDigits id _ hid]
    dsimp only
    rw [read_hex_u4_hexDigits len _ (by omega)]
    dsimp only
    rw [if_neg (by omega : ¬ len > 8)]
  unfold Command.decode
  rw [hbody]
  rfl

theorem decode_encode_RxExtRtr (id : ExtIdentifier) (len : Nat)
    (hid : id.raw ≤ 0x1FFFFFFF) (hlen : len ≤ 8) :
    Command.decode ((82 :: (hexDigits id.raw 8 ++ hexDigits len 1)) ++ [13]) =
      some (Except.ok (Command.TxExtRtr id len)) := by
  have hbody : Command.decodeBody ((82 :: (hexDigits id.raw 8 ++ hexDigits len 1)) ++ [13]) =
      some (Except.ok (Command.TxExtRtr id len, [13])) := by
    rw [show ((82 :: (hexDigits id.raw 8 ++ hexDigits len 1)) ++ [13]) =
        82 :: (hexDigits id.raw 8 ++ (hexDigits len 1 ++ [13])) by simp]
    rw [show ∀ X, Command.decodeBody (82 :: X) = Command.decodeTxExtRtr X
      from fun X => rfl]
    unfold Command.decodeTxExtRtr
    rw [read_hex_ext_identifier_hexDigits id _ hid]
    dsimp only
    rw [read_hex_u4_hexDigits len _ (by omega)]
    dsimp only
    rw [if_neg (by omega : ¬ len > 8)]
  unfold Command.decode
  rw [hbody]
  rfl

/-! ## Claim C5 (corrected): round-trip holds only after appending CR -/

/-- C5 counterexample: encoding `Rx { id: 0x100, frame: [] }` yields
`t1000` without terminator, and decoding those bytes directly fails with
`Eof` instead of returning the analogous command. -/
theorem roundtrip_counterexample :
    Notification.encode (Notification.Rx ⟨0x100⟩ (CanFrame.fromList [])) =
      Except.ok [116, 49, 48, 48, 48] ∧
    Command.decode [116, 49, 48, 48, 48] = some (Except.error Error.eof) := by
  constructor
  · rfl
  · rfl

/-- C5 (amended): for every constructible `Notification`, encoding and
then decoding the produced bytes with the CR terminator appended yields
the analogous `Command` (`Rx ↦ TxStandard`, `RxExt ↦ TxExt`,
`RxRtr ↦ TxStandardRtr`, `RxExtRtr ↦ TxExtRtr`); and for every
constructible `Response` and `Notification` (timestamped or not), the
encode output length never exceeds the declared maximum for that message
kind (6 for responses, 31 for notifications). -/
theorem roundtrip_amended :
    (∀ n : Notification, n.wf → ∃ out, Notification.encode n = Except.ok out ∧
      Command.decode (out ++ [13]) = some (Except.ok n.toCommand)) ∧
    (∀ r : Response, r.wf → ∃ out, Response.encode r = Except.ok out ∧
      out.length ≤ MAX_RESPONSE_LEN) ∧
    (∀ n : Notification, n.wf → ∃ out, Notification.encode n = Except.ok out ∧
      out.length ≤ MAX_NOTIF_LEN) ∧
    (∀ (n : Notification) (ts : Nat), n.wf →
      ∃ out, TimestampedNotification.encode ⟨n, ts⟩ = Except.ok out ∧
        out.length ≤ MAX_NOTIF_LEN) := by
  refine ⟨?_, response_encode_wf, ?_, ?_⟩
  · intro n hn
    cases n with
    | Rx id f =>
      obtain ⟨hid, hf⟩ := hn
      exact ⟨_, notification_encode_Rx id f hf.1 hf.2.1,
        decode_encode_Rx id f hid hf⟩
    | RxExt id f =>
      obtain ⟨hid, hf⟩ := hn
      exact ⟨_, notification_encode_RxExt id f hf.1 hf.2.1,
        decode_encode_RxExt id f hid hf⟩
    | RxRtr id len =>
      obtain ⟨hid, hlen⟩ := hn
      exact ⟨_, notification_encode_RxRtr id len,
        decode_encode_RxRtr id len hid hlen⟩
    | RxExtRtr id len =>
      obtain ⟨hid, hlen⟩ := hn
      exact ⟨_, notification_encode_RxExtRtr id len,
        decode_encode_RxExtRtr id len hid hlen⟩
  · intro n hn
    obtain ⟨out, hout, _, hlen⟩ := notification_encode_wf n hn
    exact ⟨out, hout, by norm_num [MAX_NOTIF_LEN]; omega⟩
  · intro n ts hn
    obtain ⟨out, hout, _, hlen⟩ := timestamped_encode_wf n ts hn
    exact ⟨out, hout, by norm_num [MAX_NOTIF_LEN]; omega⟩

/-- Witness for the amended C5 at the `t7FF0` test vector. -/
theorem roundtrip_amended_witness :
    ∃ out, Notification.encode (Notification.Rx ⟨0x7FF⟩ (CanFrame.fromList [])) =
        Except.ok out ∧
      Command.decode (out ++ [13]) =
        some (Except.ok (Notification.Rx ⟨0x7FF⟩ (CanFrame.fromList [])).toCommand) :=
  roundtrip_amended.1 (Notification.Rx ⟨0x7FF⟩ (CanFrame.fromList []))
    ⟨by norm_num, by unfold CanFrame.wf; exact ⟨rfl, by decide, rfl, by decide⟩⟩

/-! ## The pure split of buffer content into CR-terminated commands -/

theorem splitCmds_cons_cr (rest : List Nat) :
    splitCmds (13 :: rest) = ([13] :: (splitCmds rest).1, (splitCmds rest).2) := rfl

theorem splitCmds_cons_ne (b : Nat) (rest : List Nat) (h : ¬ b = 13) :
    splitCmds (b :: rest) =
      (match splitCmds rest with
       | (c :: cs, r) => ((b :: c) :: cs, r)
       | ([], r) => ([], b :: r)) := by
  rw [show splitCmds (b :: rest) =
      (if b = 13 then ([b] :: (splitCmds rest).1, (splitCmds rest).2)
       else
         match splitCmds rest with
         | (c :: cs, r) => ((b :: c) :: cs, r)
         | ([], r) => ([], b :: r)) from rfl,
    if_neg h]

/-- A CR-free list splits into no commands and itself. -/
theorem splitCmds_no_cr : ∀ (d : List Nat), 13 ∉ d → splitCmds d = ([], d)
  | [], _ => rfl
  | b :: rest, h => by
    have hb : ¬ b = 13 := fun hb => h (hb ▸ List.mem_cons_self b rest)
    have hr : 13 ∉ rest := fun hr => h (List.mem_cons_of_mem b hr)
    rw [splitCmds_cons_ne b rest hb, splitCmds_no_cr rest hr]

/-- The split yields no commands exactly when the data holds no CR. -/
theorem splitCmds_fst_nil : ∀ (d : List Nat), (splitCmds d).1 = [] ↔ 13 ∉ d
  | [] => by simp [splitCmds]
  | b :: rest => by
    constructor
    · intro h
      by_cases hb : b = 13
      · subst hb
        rw [splitCmds_cons_cr] at h
        exact absurd h (by simp)
      · rw [splitCmds_cons_ne b rest hb] at h
        rcases hsp : splitCmds rest with ⟨cs1, r1⟩
        cases cs1 with
        | nil =>
          have : 13 ∉ rest := by
            have := (splitCmds_fst_nil rest).mp (by rw [hsp])
            exact this
          simp only [List.mem_cons]
          rintro (rfl | hmem)
          · exact hb rfl
          · exact this hmem
        | cons c cs =>
          rw [hsp] at h
          simp at h
    · intro h
      rw [splitCmds_no_cr (b :: rest) h]

/-- Joining the split commands and the rest reproduces the data. -/
theorem splitCmds_join : ∀ (d : List Nat),
    (splitCmds d).1.flatten ++ (splitCmds d).2 = d
  | [] => rfl
  | b :: rest => by
    by_cases hb : b = 13
    · subst hb
      rw [splitCmds_cons_cr]
      have := splitCmds_join rest
      simp [this]
    · rw [splitCmds_cons_ne b rest hb]
      have ih := splitCmds_join rest
      rcases hsp : splitCmds rest with ⟨cs1, r1⟩
      rw [hsp] at ih
      cases cs1 with
      | nil =>
        simp only [List.flatten_nil, List.nil_append] at ih ⊢
        rw [ih]
      | cons c cs =>
        simp only [List.flatten_cons, List.cons_append, List.append_assoc] at ih ⊢
        rw [ih]

/-- The rest of the split is CR-free. -/
theorem splitCmds_rest_no_cr : ∀ (d : List Nat), 13 ∉ (splitCmds d).2
  | [] => by simp [splitCmds]
  | b :: rest => by
    by_cases hb : b = 13
    · subst hb
      rw [splitCmds_cons_cr]
      exact splitCmds_rest_no_cr rest
    · rw [splitCmds_cons_ne b rest hb]
      have ih := splitCmds_rest_no_cr rest
      rcases hsp : splitCmds rest with ⟨cs1, r1⟩
      rw [hsp] at ih
      cases cs1 with
      | nil =>
        simp only [List.mem_cons]
        rintro (rfl | hmem)
        · exact hb rfl
        · exact ih hmem
      | cons c cs => exact ih

/-- Every split command is a CR-free body followed by one CR. -/
theorem splitCmds_cmds_wf : ∀ (d : List Nat), ∀ c ∈ (splitCmds d).1,
    ∃ p, 13 ∉ p ∧ c = p ++ [13]
  | [] => by simp [splitCmds]
  | b :: rest => by
    by_cases hb : b = 13
    · subst hb
      rw [splitCmds_cons_cr]
      intro c hc
      rcases List.mem_cons.mp hc with rfl | hc
      · exact ⟨[], by simp⟩
      · exact splitCmds_cmds_wf rest c hc
    · rw [splitCmds_cons_ne b rest hb]
      have ih := splitCmds_cmds_wf rest
      rcases hsp : splitCmds rest with ⟨cs1, r1⟩
      rw [hsp] at ih
      cases cs1 with
      | nil => simp
      | cons c cs =>
        intro x hx
        rcases List.mem_cons.mp hx with rfl | hx
        · obtain ⟨p, hp, hc⟩ := ih c (List.mem_cons_self c cs)
          refine ⟨b :: p, ?_, by simp [hc]⟩
          intro hmem
          rcases List.mem_cons.mp hmem with h13 | h13
          · exact hb h13.symm
          · exact hp h13
        · exact ih x (List.mem_cons_of_mem c hx)

/-- Composition: splitting `a ++ b` is splitting `a`, then splitting the
leftover of `a` glued onto `b`. -/
theorem splitCmds_append : ∀ (a b : List Nat),
    splitCmds (a ++ b) =
      ((splitCmds a).1 ++ (splitCmds ((splitCmds a).2 ++ b)).1,
        (splitCmds ((splitCmds a).2 ++ b)).2)
  | [], b => by simp [splitCmds]
  | x :: a', b => by
    by_cases hx : x = 13
    · subst hx
      rw [List.cons_append, splitCmds_cons_cr, splitCmds_cons_cr,
        splitCmds_append a' b]
      rfl
    · rw [List.cons_append, splitCmds_cons_ne x (a' ++ b) hx,
        splitCmds_cons_ne x a' hx]
      have ih := splitCmds_append a' b
      rcases hsp : splitCmds a' with ⟨cs1, r1⟩
      rw [hsp] at ih
      cases cs1 with
      | nil =>
        have hnc : 13 ∉ a' := (splitCmds_fst_nil a').mp (by rw [hsp])
        have hr1 : r1 = a' := by
          have := splitCmds_no_cr a' hnc
          rw [hsp] at this
          exact (Prod.mk.injEq _ _ _ _).mp this.symm |>.2.symm
      -- after the no-CR case, both sides reduce to `splitCmds (x :: (a' ++ b))`
        subst hr1
        rw [ih]
        rcases hsp2 : splitCmds (r1 ++ b) with ⟨cs2, r2⟩
        cases cs2 with
        | nil =>
          simp only [List.nil_append]
          rw [show splitCmds (x :: r1 ++ b) = splitCmds (x :: (r1 ++ b)) by rw [List.cons_append],
            splitCmds_cons_ne x (r1 ++ b) hx, hsp2]
        | cons c2 cs2 =>
          simp only [List.nil_append]
          rw [show splitCmds (x :: r1 ++ b) = splitCmds (x :: (r1 ++ b)) by rw [List.cons_append],
            splitCmds_cons_ne x (r1 ++ b) hx, hsp2]
      | cons c cs =>
        rw [ih]
        simp

/-! ## Refinement of the drain iterator to the pure split -/

theorem splitCmds_of_findIdx : ∀ (d : List Nat) (k : Nat),
    d.findIdx? (· == 13) = some k →
    k + 1 ≤ d.length ∧
    splitCmds d = ((d.take (k + 1)) :: (splitCmds (d.drop (k + 1))).1,
      (splitCmds (d.drop (k + 1))).2)
  | [], k, h => by simp at h
  | b :: rest, k, h => by
    rw [List.findIdx?_cons] at h
    by_cases hb : b = 13
    · subst hb
      rw [if_pos (by simp)] at h
      obtain rfl : k = 0 := by simpa using h.symm
      refine ⟨by simp, ?_⟩
      rw [splitCmds_cons_cr]
      rfl
    · rw [if_neg (by simp [hb])] at h
      rw [List.findIdx?_succ] at h
      obtain ⟨k', hk', rfl⟩ := Option.map_eq_some'.mp h
      obtain ⟨hlt, hsp⟩ := splitCmds_of_findIdx rest k' hk'
      refine ⟨by simp; omega, ?_⟩
      rw [splitCmds_cons_ne b rest hb, hsp]
      rfl

theorem find_cr_none_iff (buf : CommandBuf) (pos : Nat) :
    buf.find_cr pos = none ↔ 13 ∉ buf.dataOf.drop pos := by
  unfold CommandBuf.find_cr
  rw [Option.map_eq_none']
  rw [List.findIdx?_eq_none_iff]
  constructor
  · intro h hmem
    have := h 13 hmem
    simp at this
  · intro h x hx
    simp only [beq_eq_false_iff_ne, ne_eq]
    rintro rfl
    exact h hx

theorem find_cr_some (buf : CommandBuf) (pos e : Nat)
    (h : buf.find_cr pos = some e) :
    ∃ k, (buf.dataOf.drop pos).findIdx? (· == 13) = some k ∧ e = k + pos := by
  unfold CommandBuf.find_cr at h
  obtain ⟨k, hk, he⟩ := Option.map_eq_some'.mp h
  exact ⟨k, hk, he.symm⟩

/-- The drained results and final position of the iterator, expressed
through the pure split of the buffer content (the non-degenerate case:
the full-buffer error branch is excluded by the last hypothesis). -/
theorem run_spec : ∀ (fuel : Nat) (buf : CommandBuf) (pos : Nat),
    buf.bytes.length = Command.MAX_ENCODED_LEN →
    buf.used ≤ Command.MAX_ENCODED_LEN →
    pos ≤ buf.used → buf.used - pos < fuel →
    (pos = 0 → ¬(buf.used = Command.MAX_ENCODED_LEN ∧ 13 ∉ buf.dataOf)) →
    CommandIter.run buf pos fuel =
      ((splitCmds (buf.dataOf.drop pos)).1.map Command.decodeD,
        pos + ((splitCmds (buf.dataOf.drop pos)).1.flatten).length)
  | 0, buf, pos, _, _, _, hfuel, _ => by omega
  | fuel + 1, buf, pos, h27, hu, hpos, hfuel, h0 => by
    have hdlen : buf.dataOf.length = buf.used := by
      unfold CommandBuf.dataOf
      rw [List.length_take, h27]
      omega
    have hdrop_len : (buf.dataOf.drop pos).length = buf.used - pos := by
      rw [List.length_drop, hdlen]
    rw [show CommandIter.run buf pos (fuel + 1) =
        (match CommandIter.next buf pos with
         | none => ([], pos)
         | some (r, pos') =>
           let rest := CommandIter.run buf pos' fuel
           (r :: rest.1, rest.2)) from rfl]
    cases hf : buf.find_cr pos with
    | none =>
      have hnc : 13 ∉ buf.dataOf.drop pos := (find_cr_none_iff buf pos).mp hf
      have hnext : CommandIter.next buf pos = none := by
        unfold CommandIter.next
        rw [hf]
        rw [if_neg ?_]
        rintro ⟨rfl, hfull⟩
        have hused : buf.used = Command.MAX_ENCODED_LEN := by
          simpa [CommandBuf.is_full] using hfull
        exact h0 rfl ⟨hused, by simpa using hnc⟩
      rw [hnext, splitCmds_no_cr _ hnc]
      simp
    | some e =>
      obtain ⟨k, hk, rfl⟩ := find_cr_some buf pos e hf
      obtain ⟨hk1, hsp⟩ := splitCmds_of_findIdx _ k hk
      rw [hdrop_len] at hk1
      have hcmd : (buf.bytes.drop pos).take (k + pos + 1 - pos) =
          (buf.dataOf.drop pos).take (k + 1) := by
        rw [show k + pos + 1 - pos = k + 1 by omega]
        unfold CommandBuf.dataOf
        rw [List.drop_take, List.take_take]
        congr 1
        omega
      have htl1 : ((buf.dataOf.drop pos).take (k + 1)).length = k + 1 := by
        rw [List.length_take, hdrop_len]
        omega
      have hnext : CommandIter.next buf pos =
          some (Command.decodeD ((buf.dataOf.drop pos).take (k + 1)), pos + (k + 1)) := by
        unfold CommandIter.next
        rw [hf]
        dsimp only
        rw [hcmd, htl1]
      rw [hnext]
      have IH := run_spec fuel buf (pos + (k + 1)) h27 hu (by omega) (by omega)
        (fun h => absurd h (by omega))
      rw [show buf.dataOf.drop (pos + (k + 1)) =
          (buf.dataOf.drop pos).drop (k + 1) from (List.drop_drop _ _ _).symm] at IH
      dsimp only
      rw [IH, hsp]
      simp only [List.map_cons, List.flatten_cons, List.length_append, htl1,
        Prod.mk.injEq]
      refine ⟨by first | trivial | rfl, by omega⟩

/-- The degenerate drain: a completely full buffer with no CR yields
exactly one decode error, consuming the whole buffer, and then nothing
further. -/
theorem run_full_nocr (buf : CommandBuf) (fuel : Nat)
    (h27 : buf.bytes.length = Command.MAX_ENCODED_LEN)
    (hused : buf.used = Command.MAX_ENCODED_LEN)
    (hnc : 13 ∉ buf.dataOf) (hfuel : 2 ≤ fuel) :
    CommandIter.run buf 0 fuel =
      ([Except.error Error.decode], Command.MAX_ENCODED_LEN) ∧
    CommandIter.next buf Command.MAX_ENCODED_LEN = none := by
  have hnext0 : CommandIter.next buf 0 =
      some (Except.error Error.decode, Command.MAX_ENCODED_LEN) := by
    unfold CommandIter.next
    rw [(find_cr_none_iff buf 0).mpr (by simpa using hnc)]
    rw [if_pos ⟨rfl, by simp [CommandBuf.is_full, hused]⟩]
  have hd27 : buf.dataOf.drop Command.MAX_ENCODED_LEN = [] := by
    apply List.drop_eq_nil_of_le
    unfold CommandBuf.dataOf
    rw [List.length_take]
    omega
  have hnextM : CommandIter.next buf Command.MAX_ENCODED_LEN = none := by
    unfold CommandIter.next
    rw [(find_cr_none_iff buf Command.MAX_ENCODED_LEN).mpr (by rw [hd27]; simp)]
    rw [if_neg (by simp [Command.MAX_ENCODED_LEN])]
  refine ⟨?_, hnextM⟩
  obtain ⟨fuel2, rfl⟩ : ∃ f, fuel = f + 2 := ⟨fuel - 2, by omega⟩
  rw [show CommandIter.run buf 0 (fuel2 + 2) =
      (match CommandIter.next buf 0 with
       | none => ([], 0)
       | some (r, pos') =>
         let rest := CommandIter.run buf pos' (fuel2 + 1)
         (r :: rest.1, rest.2)) from rfl, hnext0]
  dsimp only
  rw [show CommandIter.run buf Command.MAX_ENCODED_LEN (fuel2 + 1) =
      (match CommandIter.next buf Command.MAX_ENCODED_LEN with
       | none => ([], Command.MAX_ENCODED_LEN)
       | some (r, pos') =>
         let rest := CommandIter.run buf pos' fuel2
         (r :: rest.1, rest.2)) from rfl, hnextM]

theorem processData_full (d : List Nat)
    (h : (splitCmds d).1 = [] ∧ d.length = Command.MAX_ENCODED_LEN) :
    processData d = ([Except.error Error.decode], []) := by
  unfold processData
  dsimp only
  rw [if_pos h]

theorem processData_normal (d : List Nat)
    (h : ¬((splitCmds d).1 = [] ∧ d.length = Command.MAX_ENCODED_LEN)) :
    processData d = ((splitCmds d).1.map Command.decodeD, (splitCmds d).2) := by
  unfold processData
  dsimp only
  rw [if_neg h]

/-- One full caller cycle (`tail_mut` copy + `advance_by` + drain + drop)
is exactly the pure `processData` on the old content plus the chunk, and
the compacted buffer retains exactly the leftover. -/
theorem feed_spec (buf : CommandBuf) (chunk : List Nat)
    (h27 : buf.bytes.length = Command.MAX_ENCODED_LEN)
    (hcap : buf.used + chunk.length ≤ Command.MAX_ENCODED_LEN) :
    (CommandBuf.feed buf chunk).1 = (processData (buf.dataOf ++ chunk)).1 ∧
    (CommandBuf.feed buf chunk).2.dataOf = (processData (buf.dataOf ++ chunk)).2 ∧
    (CommandBuf.feed buf chunk).2.bytes.length = Command.MAX_ENCODED_LEN ∧
    (CommandBuf.feed buf chunk).2.used = (processData (buf.dataOf ++ chunk)).2.length := by
  have hdataOf : buf.dataOf.length = buf.used := by
    unfold CommandBuf.dataOf
    rw [List.length_take]
    omega
  set d : List Nat := buf.dataOf ++ chunk with hd
  have hdlen : d.length = buf.used + chunk.length := by
    rw [hd, List.length_append, hdataOf]
  set buf1 : CommandBuf :=
    ⟨buf.bytes.take buf.used ++ chunk ++ buf.bytes.drop (buf.used + chunk.length),
     buf.used + chunk.length⟩ with hbuf1
  have hfeed : CommandBuf.feed buf chunk =
      ((CommandIter.run buf1 0 (buf1.used + 1)).1,
        CommandIter.drop buf1 (CommandIter.run buf1 0 (buf1.used + 1)).2) := rfl
  have hlen_l : (buf.bytes.take buf.used ++ chunk).length =
      buf.used + chunk.length := by
    rw [List.length_append, List.length_take]
    omega
  have hb1len : buf1.bytes.length = Command.MAX_ENCODED_LEN := by
    show (buf.bytes.take buf.used ++ chunk ++
        buf.bytes.drop (buf.used + chunk.length)).length = _
    rw [List.length_append, hlen_l, List.length_drop, h27]
    omega
  have hb1data : buf1.dataOf = d := by
    show (buf.bytes.take buf.used ++ chunk ++
        buf.bytes.drop (buf.used + chunk.length)).take (buf.used + chunk.length) = d
    rw [List.take_append_of_le_length (le_of_eq hlen_l.symm), ← hlen_l,
      List.take_length]
    rfl
  by_cases herr : (splitCmds d).1 = [] ∧ d.length = Command.MAX_ENCODED_LEN
  · -- the full-buffer error branch
    have hused1 : buf1.used = Command.MAX_ENCODED_LEN := by
      show buf.used + chunk.length = _
      rw [← hdlen]
      exact herr.2
    have hnc : 13 ∉ buf1.dataOf := by
      rw [hb1data]
      exact (splitCmds_fst_nil d).mp herr.1
    obtain ⟨hrun, _⟩ := run_full_nocr buf1 (buf1.used + 1) hb1len hused1 hnc
      (by rw [hused1]; norm_num [Command.MAX_ENCODED_LEN])
    rw [processData_full d herr, hfeed, hrun]
    refine ⟨rfl, ?_, ?_, ?_⟩
    · show (buf1.bytes.drop Command.MAX_ENCODED_LEN ++
          buf1.bytes.drop (buf1.bytes.length - Command.MAX_ENCODED_LEN)).take
          (buf1.used - Command.MAX_ENCODED_LEN) = []
      rw [hused1]
      simp
    · show (buf1.bytes.drop Command.MAX_ENCODED_LEN ++
          buf1.bytes.drop (buf1.bytes.length - Command.MAX_ENCODED_LEN)).length = _
      rw [List.length_append, List.length_drop, List.length_drop, hb1len]
      omega
    · show buf1.used - Command.MAX_ENCODED_LEN = ([] : List Nat).length
      rw [hused1]
      simp
  · -- the normal branch
    have hused1_le : buf1.used ≤ Command.MAX_ENCODED_LEN := hcap
    have h0 : (0 : Nat) = 0 → ¬(buf1.used = Command.MAX_ENCODED_LEN ∧
        13 ∉ buf1.dataOf) := by
      intro _
      rintro ⟨hfull, hnc⟩
      rw [hb1data] at hnc
      exact herr ⟨(splitCmds_fst_nil d).mpr hnc, by rw [hdlen]; exact hfull⟩
    have hrun := run_spec (buf1.used + 1) buf1 0 hb1len hused1_le (by omega)
      (by omega) h0
    rw [hb1data, List.drop_zero] at hrun
    have hflat : (splitCmds d).1.flatten ++ (splitCmds d).2 = d := splitCmds_join d
    have hflat_len : ((splitCmds d).1.flatten).length + ((splitCmds d).2).length =
        d.length := by
      rw [← List.length_append, hflat]
    have hpos_le : ((splitCmds d).1.flatten).length ≤ buf1.used := by
      show _ ≤ buf.used + chunk.length
      omega
    rw [processData_normal d herr, hfeed, hrun]
    have hdrop_d : d.drop ((splitCmds d).1.flatten).length = (splitCmds d).2 := by
      have h2 := List.drop_left (splitCmds d).1.flatten (splitCmds d).2
      rw [hflat] at h2
      exact h2
    refine ⟨rfl, ?_, ?_, ?_⟩
    · show (buf1.bytes.drop (0 + ((splitCmds d).1.flatten).length) ++
          buf1.bytes.drop (buf1.bytes.length -
            (0 + ((splitCmds d).1.flatten).length))).take
          (buf1.used - (0 + ((splitCmds d).1.flatten).length)) = (splitCmds d).2
      rw [Nat.zero_add]
      rw [List.take_append_of_le_length (by
        rw [List.length_drop, hb1len]
        omega)]
      rw [← List.drop_take]
      show (CommandBuf.dataOf buf1).drop ((splitCmds d).1.flatten).length =
        (splitCmds d).2
      rw [hb1data, hdrop_d]
    · show (buf1.bytes.drop (0 + ((splitCmds d).1.flatten).length) ++
          buf1.bytes.drop (buf1.bytes.length -
            (0 + ((splitCmds d).1.flatten).length))).length = _
      rw [List.length_append, List.length_drop, List.length_drop, hb1len]
      omega
    · show buf1.used - (0 + ((splitCmds d).1.flatten).length) =
        ((splitCmds d).2).length
      show buf.used + chunk.length - (0 + ((splitCmds d).1.flatten).length) = _
      omega

/-- A single complete command splits into itself with empty leftover. -/
theorem splitCmds_single : ∀ (p : List Nat), 13 ∉ p →
    splitCmds (p ++ [13]) = ([p ++ [13]], [])
  | [], _ => rfl
  | b :: p, h => by
    have hb : ¬ b = 13 := fun hb => h (hb ▸ List.mem_cons_self b p)
    have hp : 13 ∉ p := fun hp => h (List.mem_cons_of_mem b hp)
    rw [List.cons_append, splitCmds_cons_ne b (p ++ [13]) hb,
      splitCmds_single p hp]

/-! ## Claim C2: full-buffer resynchronization -/

/-- C2: when the buffer becomes completely full (27 bytes) with no CR
anywhere, the drain yields exactly one malformed (`Decode`) result and
nothing else, the buffer is left empty (`used = 0`), and any valid
command fed afterwards still decodes successfully. -/
theorem full_buffer_resync (buf : CommandBuf) (chunk : List Nat)
    (h27 : buf.bytes.length = Command.MAX_ENCODED_LEN)
    (hfull : buf.used + chunk.length = Command.MAX_ENCODED_LEN)
    (hnc : 13 ∉ buf.dataOf ++ chunk) :
    (CommandBuf.feed buf chunk).1 = [Except.error Error.decode] ∧
    (CommandBuf.feed buf chunk).2.used = 0 ∧
    (∀ (p : List Nat) (cmd : Command), 13 ∉ p →
      Command.decode (p ++ [13]) = some (Except.ok cmd) →
      p.length + 1 ≤ Command.MAX_ENCODED_LEN →
      ((CommandBuf.feed buf chunk).2.feed (p ++ [13])).1 = [Except.ok cmd]) := by
  have hdataOf : buf.dataOf.length = buf.used := by
    unfold CommandBuf.dataOf
    rw [List.length_take]
    omega
  have herr : (splitCmds (buf.dataOf ++ chunk)).1 = [] ∧
      (buf.dataOf ++ chunk).length = Command.MAX_ENCODED_LEN :=
    ⟨(splitCmds_fst_nil _).mpr hnc, by rw [List.length_append, hdataOf]; exact hfull⟩
  have fs := feed_spec buf chunk h27 (le_of_eq hfull)
  rw [processData_full _ herr] at fs
  obtain ⟨hres, hdata2, hlen2, hused2⟩ := fs
  refine ⟨hres, by simpa using hused2, ?_⟩
  intro p cmd hp hdec hplen
  have hcap2 : (CommandBuf.feed buf chunk).2.used + (p ++ [13]).length ≤
      Command.MAX_ENCODED_LEN := by
    rw [List.length_append]
    simp only [hused2]
    simpa using hplen
  have fs2 := feed_spec (CommandBuf.feed buf chunk).2 (p ++ [13]) hlen2 hcap2
  rw [hdata2] at fs2
  rw [show ([] : List Nat) ++ (p ++ [13]) = p ++ [13] from List.nil_append _] at fs2
  rw [processData_normal (p ++ [13]) (by
    rw [splitCmds_single p hp]
    simp)] at fs2
  rw [fs2.1, splitCmds_single p hp]
  show [Command.decodeD (p ++ [13])] = [Except.ok cmd]
  unfold Command.decodeD
  rw [hdec]
  rfl

/-- Witness for C2: 27 junk bytes (`A`), then `S0\r`. -/
theorem full_buffer_resync_witness :
    (CommandBuf.feed CommandBuf.new (List.replicate 27 65)).1 =
      [Except.error Error.decode] ∧
    ((CommandBuf.feed CommandBuf.new (List.replicate 27 65)).2.feed
      ([83, 48] ++ [13])).1 =
      [Except.ok (Command.SetupWithBitrate Bitrate.k10)] := by
  have h := full_buffer_resync CommandBuf.new (List.replicate 27 65)
    (by decide) (by decide) (by decide)
  exact ⟨h.1, h.2.2 [83, 48] (Command.SetupWithBitrate Bitrate.k10)
    (by decide) (by decide) (by decide)⟩

/-! ## Claim C3: the compaction epilogue and the no-CR invariant -/

/-- C3: after every complete drain pass (`feed`), the retained bytes
`[0, used)` contain no CR; in the normal case they are exactly the bytes
following the last fully consumed command (the leftover of the split),
moved to the front, with the used-count reduced by the number of consumed
bytes; in the full-buffer error case the buffer is emptied. -/
theorem compaction_invariant (buf : CommandBuf) (chunk : List Nat)
    (h27 : buf.bytes.length = Command.MAX_ENCODED_LEN)
    (hcap : buf.used + chunk.length ≤ Command.MAX_ENCODED_LEN) :
    13 ∉ (CommandBuf.feed buf chunk).2.dataOf ∧
    (¬((splitCmds (buf.dataOf ++ chunk)).1 = [] ∧
        (buf.dataOf ++ chunk).length = Command.MAX_ENCODED_LEN) →
      (CommandBuf.feed buf chunk).2.dataOf = (splitCmds (buf.dataOf ++ chunk)).2 ∧
      (splitCmds (buf.dataOf ++ chunk)).1.flatten ++
        (splitCmds (buf.dataOf ++ chunk)).2 = buf.dataOf ++ chunk ∧
      (CommandBuf.feed buf chunk).2.used +
        ((splitCmds (buf.dataOf ++ chunk)).1.flatten).length =
        buf.used + chunk.length ∧
      (CommandBuf.feed buf chunk).1 =
        (splitCmds (buf.dataOf ++ chunk)).1.map Command.decodeD) ∧
    (((splitCmds (buf.dataOf ++ chunk)).1 = [] ∧
        (buf.dataOf ++ chunk).length = Command.MAX_ENCODED_LEN) →
      (CommandBuf.feed buf chunk).2.used = 0) := by
  have hdataOf : buf.dataOf.length = buf.used := by
    unfold CommandBuf.dataOf
    rw [List.length_take]
    omega
  have fs := feed_spec buf chunk h27 hcap
  by_cases herr : (splitCmds (buf.dataOf ++ chunk)).1 = [] ∧
      (buf.dataOf ++ chunk).length = Command.MAX_ENCODED_LEN
  · rw [processData_full _ herr] at fs
    refine ⟨by rw [fs.2.1]; simp, fun h => absurd herr h, fun _ => by simpa using fs.2.2.2⟩
  · rw [processData_normal _ herr] at fs
    obtain ⟨hres, hdata2, _, hused2⟩ := fs
    refine ⟨by rw [hdata2]; exact splitCmds_rest_no_cr _, ?_, fun h => absurd h herr⟩
    intro _
    have hflat := splitCmds_join (buf.dataOf ++ chunk)
    have hflat_len : ((splitCmds (buf.dataOf ++ chunk)).1.flatten).length +
        ((splitCmds (buf.dataOf ++ chunk)).2).length =
        (buf.dataOf ++ chunk).length := by
      rw [← List.length_append, hflat]
    refine ⟨hdata2, hflat, ?_, hres⟩
    dsimp only at hused2
    rw [hused2]
    rw [List.length_append, hdataOf] at hflat_len
    omega

/-- Witness for C3 at the `S0\rS0` test vector (one complete command,
leftover `S0`). -/
theorem compaction_invariant_witness :
    13 ∉ (CommandBuf.feed CommandBuf.new [83, 48, 13, 83, 48]).2.dataOf ∧
    (CommandBuf.feed CommandBuf.new [83, 48, 13, 83, 48]).2.dataOf =
      (splitCmds (CommandBuf.new.dataOf ++ [83, 48, 13, 83, 48])).2 := by
  have h := compaction_invariant CommandBuf.new [83, 48, 13, 83, 48]
    (by decide) (by decide)
  exact ⟨h.1, (h.2.1 (by decide)).1⟩

/-! ## Claim C1: chunk invariance of the incremental framer -/

/-- Iterated feeding is the pure split of everything fed, provided the
buffered stream always either ends in CR or leaves slack (which rules out
the full-buffer error branch at every step). -/
theorem feedAll_results : ∀ (chunks : List (List Nat)) (buf : CommandBuf),
    buf.bytes.length = Command.MAX_ENCODED_LEN →
    buf.used ≤ Command.MAX_ENCODED_LEN →
    (buf.dataOf ++ chunks.flatten).length ≤ Command.MAX_ENCODED_LEN →
    13 ∉ buf.dataOf →
    (buf.dataOf ++ chunks.flatten = [] ∨
      (buf.dataOf ++ chunks.flatten).getLast? = some 13) →
    (CommandBuf.feedAll buf chunks).1 =
      (splitCmds (buf.dataOf ++ chunks.flatten)).1.map Command.decodeD ∧
    (CommandBuf.feedAll buf chunks).2.dataOf =
      (splitCmds (buf.dataOf ++ chunks.flatten)).2 ∧
    (CommandBuf.feedAll buf chunks).2.bytes.length = Command.MAX_ENCODED_LEN
  | [], buf, h27, _, _, hnc, _ => by
    rw [show CommandBuf.feedAll buf [] = ([], buf) from rfl]
    rw [List.flatten_nil, List.append_nil, splitCmds_no_cr _ hnc]
    exact ⟨rfl, rfl, h27⟩
  | c :: cs, buf, h27, hu, hlen, hnc, hlast => by
    have hdataOf : buf.dataOf.length = buf.used := by
      unfold CommandBuf.dataOf
      rw [List.length_take]
      omega
    have hflat_ccs : (c :: cs).flatten = c ++ cs.flatten := List.flatten_cons
    have hassoc : buf.dataOf ++ (c :: cs).flatten =
        (buf.dataOf ++ c) ++ cs.flatten := by
      rw [hflat_ccs, List.append_assoc]
    have hlenA : buf.used + c.length + cs.flatten.length ≤
        Command.MAX_ENCODED_LEN := by
      have h := hlen
      rw [List.length_append, hflat_ccs, List.length_append, hdataOf] at h
      omega
    have hcap : buf.used + c.length ≤ Command.MAX_ENCODED_LEN := by omega
    have herr : ¬((splitCmds (buf.dataOf ++ c)).1 = [] ∧
        (buf.dataOf ++ c).length = Command.MAX_ENCODED_LEN) := by
      rintro ⟨hnil, hfull⟩
      have hncd : 13 ∉ buf.dataOf ++ c := (splitCmds_fst_nil _).mp hnil
      have hflat_nil : cs.flatten = [] := by
        rw [List.length_append, hdataOf] at hfull
        exact List.length_eq_zero.mp (by omega)
      have htot : buf.dataOf ++ (c :: cs).flatten = buf.dataOf ++ c := by
        rw [hassoc, hflat_nil, List.append_nil]
      rcases hlast with hnil' | h13
      · rw [htot] at hnil'
        rw [hnil'] at hfull
        simp [Command.MAX_ENCODED_LEN] at hfull
      · rw [htot] at h13
        exact hncd (List.mem_of_mem_getLast? h13)
    have fs := feed_spec buf c h27 hcap
    rw [processData_normal _ herr] at fs
    obtain ⟨hres, hdata2, hblen2, hused2⟩ := fs
    dsimp only at hres hdata2 hused2
    have hrest_nc : 13 ∉ (splitCmds (buf.dataOf ++ c)).2 := splitCmds_rest_no_cr _
    have hflat1 := splitCmds_join (buf.dataOf ++ c)
    have hflat1_len : ((splitCmds (buf.dataOf ++ c)).1.flatten).length +
        ((splitCmds (buf.dataOf ++ c)).2).length = buf.used + c.length := by
      have h := congrArg List.length hflat1
      rw [List.length_append, List.length_append, hdataOf] at h
      omega
    have hu2 : (CommandBuf.feed buf c).2.used ≤ Command.MAX_ENCODED_LEN := by
      rw [hused2]
      omega
    have hdecomp : (buf.dataOf ++ c) ++ cs.flatten =
        (splitCmds (buf.dataOf ++ c)).1.flatten ++
          ((splitCmds (buf.dataOf ++ c)).2 ++ cs.flatten) := by
      rw [← List.append_assoc, hflat1]
    have hlen2 : (((splitCmds (buf.dataOf ++ c)).2 ++ cs.flatten)).length ≤
        Command.MAX_ENCODED_LEN := by
      rw [List.length_append]
      omega
    have hlast2 : (splitCmds (buf.dataOf ++ c)).2 ++ cs.flatten = [] ∨
        ((splitCmds (buf.dataOf ++ c)).2 ++ cs.flatten).getLast? = some 13 := by
      by_cases hemp : (splitCmds (buf.dataOf ++ c)).2 ++ cs.flatten = []
      · exact Or.inl hemp
      · right
        have h1 : ((splitCmds (buf.dataOf ++ c)).1.flatten ++
            ((splitCmds (buf.dataOf ++ c)).2 ++ cs.flatten)).getLast? =
            ((splitCmds (buf.dataOf ++ c)).2 ++ cs.flatten).getLast? :=
          List.getLast?_append_of_ne_nil _ hemp
        rw [← hdecomp, ← hassoc] at h1
        rcases hlast with hnil' | h13
        · exfalso
          apply hemp
          have h0 : (buf.dataOf ++ c) ++ cs.flatten = [] := by
            rw [← hassoc]
            exact hnil'
          rw [hdecomp] at h0
          exact (List.append_eq_nil.mp h0).2
        · rw [← h1, h13]
    obtain ⟨ih1, ih2, ih3⟩ := feedAll_results cs (CommandBuf.feed buf c).2 hblen2
      hu2 (by rw [hdata2]; exact hlen2) (by rw [hdata2]; exact hrest_nc)
      (by rw [hdata2]; exact hlast2)
    rw [hdata2] at ih1 ih2
    rw [show CommandBuf.feedAll buf (c :: cs) =
        ((CommandBuf.feed buf c).1 ++
          (CommandBuf.feedAll (CommandBuf.feed buf c).2 cs).1,
          (CommandBuf.feedAll (CommandBuf.feed buf c).2 cs).2) from rfl]
    have hsplit := splitCmds_append (buf.dataOf ++ c) cs.flatten
    refine ⟨?_, ?_, ih3⟩
    · show (CommandBuf.feed buf c).1 ++
          (CommandBuf.feedAll (CommandBuf.feed buf c).2 cs).1 = _
      rw [hres, ih1, hassoc, hsplit]
      dsimp only
      rw [List.map_append]
    · show (CommandBuf.feedAll (CommandBuf.feed buf c).2 cs).2.dataOf = _
      rw [ih2, hassoc, hsplit]

/-- C1: feeding a stream of complete CR-terminated commands to the
incremental framer in arbitrary chunks yields exactly the same ordered
sequence of decode results as feeding the whole stream at once; chunk
boundaries (including a terminator split across two appends) do not
matter. -/
theorem chunk_invariance (cmds chunks : List (List Nat))
    (hcmds : ∀ c ∈ cmds, ∃ p, 13 ∉ p ∧ c = p ++ [13])
    (hlen : cmds.flatten.length ≤ Command.MAX_ENCODED_LEN)
    (hne : ∀ ch ∈ chunks, ch ≠ [])
    (hjoin : chunks.flatten = cmds.flatten) :
    (CommandBuf.new.feedAll chunks).1 = (CommandBuf.new.feedAll [cmds.flatten]).1 := by
  have hlast : ∀ (l : List (List Nat)), (∀ c ∈ l, ∃ p, 13 ∉ p ∧ c = p ++ [13]) →
      l.flatten = [] ∨ l.flatten.getLast? = some 13 := by
    intro l
    induction l with
    | nil => exact fun _ => Or.inl rfl
    | cons c cs ih =>
      intro h
      have hc := h c (List.mem_cons_self c cs)
      obtain ⟨p, hp, rfl⟩ := hc
      rcases ih (fun x hx => h x (List.mem_cons_of_mem _ hx)) with hnil | h13
      · right
        rw [List.flatten_cons, hnil, List.append_nil]
        exact List.getLast?_concat _
      · right
        have hne' : cs.flatten ≠ [] := by
          intro hcon
          rw [hcon] at h13
          simp at h13
        rw [List.flatten_cons, List.getLast?_append_of_ne_nil _ hne']
        exact h13
  have hnew : CommandBuf.new.bytes.length = Command.MAX_ENCODED_LEN := by decide
  have hnewdata : CommandBuf.new.dataOf = ([] : List Nat) := rfl
  have hflat_single : ([cmds.flatten] : List (List Nat)).flatten = cmds.flatten := by
    simp
  have hL := feedAll_results chunks CommandBuf.new hnew (by decide)
    (by rw [hnewdata, List.nil_append, hjoin]; exact hlen)
    (by rw [hnewdata]; simp)
    (by rw [hnewdata, List.nil_append, hjoin]; exact hlast cmds hcmds)
  have hR := feedAll_results [cmds.flatten] CommandBuf.new hnew (by decide)
    (by rw [hnewdata, List.nil_append, hflat_single]; exact hlen)
    (by rw [hnewdata]; simp)
    (by rw [hnewdata, List.nil_append, hflat_single]; exact hlast cmds hcmds)
  rw [hL.1, hR.1, hnewdata]
  simp only [List.nil_append, hjoin, hflat_single]

/-- Witness for C1: `S0\rO\r` fed as `"S0" / "\rO" / "\r"` (terminator
split across append boundaries) equals the single-chunk feed. -/
theorem chunk_invariance_witness :
    (CommandBuf.new.feedAll [[83, 48], [13, 79], [13]]).1 =
      (CommandBuf.new.feedAll
        [([[83, 48, 13], [79, 13]] : List (List Nat)).flatten]).1 :=
  chunk_invariance [[83, 48, 13], [79, 13]] [[83, 48], [13, 79], [13]]
    (by
      intro c hc
      rcases List.mem_cons.mp hc with rfl | hc
      · exact ⟨[83, 48], by decide, rfl⟩
      · rcases List.mem_cons.mp hc with rfl | hc
        · exact ⟨[79], by decide, rfl⟩
        · simp at hc)
    (by decide) (by decide) (by decide)

/-! ## Claim C6: proper prefixes of well-formed commands are truncated -/

/-- Split a prefix of an append at the boundary. -/
theorem pfx_split {p x y : List Nat} (h : p <+: x ++ y) :
    p <+: x ∨ ∃ q, p = x ++ q ∧ q <+: y := by
  by_cases hlen : p.length ≤ x.length
  · left
    have hp := List.prefix_iff_eq_take.mp h
    rw [List.take_append_of_le_length hlen] at hp
    rw [hp]
    exact List.take_prefix _ _
  · right
    obtain ⟨r, hr⟩ := h
    refine ⟨p.drop x.length, ?_, ?_⟩
    · have hx : p.take x.length = x := by
        have hc := congrArg (List.take x.length) hr
        rw [List.take_append_of_le_length (by omega), List.take_left] at hc
        exact hc
      conv_lhs => rw [← List.take_append_drop x.length p, hx]
    · have hx : p.take x.length = x := by
        have hc := congrArg (List.take x.length) hr
        rw [List.take_append_of_le_length (by omega), List.take_left] at hc
        exact hc
      refine ⟨r, ?_⟩
      have hp : p = x ++ p.drop x.length := by
        conv_lhs => rw [← List.take_append_drop x.length p, hx]
      rw [hp, List.append_assoc] at hr
      exact List.append_cancel_left hr

/-- Proper prefixes of a singleton are empty. -/
theorem pfx_singleton {p : List Nat} {b : Nat} (h : p <+: [b]) :
    p = [] ∨ p = [b] := by
  rcases h with ⟨r, hr⟩
  cases p with
  | nil => exact Or.inl rfl
  | cons x xs =>
    right
    simp at hr
    simp [hr.1, hr.2.1]

theorem PS_read_byte : PS (fun input => Reader.read_byte input) := by
  intro input a rest h
  cases input with
  | nil => simp [Reader.read_byte] at h
  | cons b input' =>
    have hba : b = a ∧ input' = rest := by simpa [Reader.read_byte] using h
    obtain ⟨rfl, rfl⟩ := hba
    refine ⟨[b], rfl, fun t => rfl, ?_⟩
    intro p hp hne
    rcases pfx_singleton hp with rfl | rfl
    · rfl
    · exact absurd rfl hne

theorem PS_readHexGo : ∀ (d acc : Nat), PS (Reader.readHexGo d acc)
  | 0, acc => by
    intro input a rest h
    have har : acc = a ∧ input = rest := by
      simpa [Reader.readHexGo] using h
    obtain ⟨rfl, rfl⟩ := har
    exact ⟨[], rfl, fun t => rfl, fun p hp hne => by
      rcases List.prefix_nil.mp hp with rfl
      exact absurd rfl hne⟩
  | d + 1, acc => by
    intro input a rest h
    cases input with
    | nil => simp [Reader.readHexGo, Reader.read_byte] at h
    | cons b input' =>
      rw [show Reader.readHexGo (d + 1) acc (b :: input') =
          (match unhex b with
           | Except.error e => Except.error e
           | Except.ok nib =>
             Reader.readHexGo d (((acc <<< 4) % 4294967296) ||| nib) input')
        from rfl] at h
      cases hu : unhex b with
      | error e => rw [hu] at h; simp at h
      | ok nib =>
        rw [hu] at h
        dsimp only at h
        obtain ⟨u', hin, det, pfxeof⟩ := PS_readHexGo d _ input' a rest h
        refine ⟨b :: u', by rw [hin]; rfl, ?_, ?_⟩
        · intro t
          rw [show ((b :: u') ++ t) = b :: (u' ++ t) from rfl]
          rw [show Reader.readHexGo (d + 1) acc (b :: (u' ++ t)) =
              (match unhex b with
               | Except.error e => Except.error e
               | Except.ok nib =>
                 Reader.readHexGo d (((acc <<< 4) % 4294967296) ||| nib) (u' ++ t))
            from rfl, hu]
          exact det t
        · intro p hp hne
          cases p with
          | nil => rfl
          | cons x p' =>
            obtain ⟨r, hr⟩ := hp
            rw [List.cons_append] at hr
            have hx : x = b := ((List.cons.injEq _ _ _ _).mp hr).1
            have hr' : p' ++ r = u' := ((List.cons.injEq _ _ _ _).mp hr).2
            have hp' : p' <+: u' := ⟨r, hr'⟩
            have hne' : p' ≠ u' := by
              rintro rfl
              apply hne
              rw [hx]
            rw [show Reader.readHexGo (d + 1) acc (x :: p') =
                (match unhex x with
                 | Except.error e => Except.error e
                 | Except.ok nib =>
                   Reader.readHexGo d (((acc <<< 4) % 4294967296) ||| nib) p')
              from rfl, hx, hu]
            exact pfxeof p' hp' hne'

theorem PS_read_hex_digits (d : Nat) : PS (Reader.read_hex_digits d) :=
  PS_readHexGo d 0

theorem PS_read_hex_u4 : PS Reader.read_hex_u4 := by
  intro input a rest h
  unfold Reader.read_hex_u4 at h
  cases hd : Reader.read_hex_digits 1 input with
  | error e => rw [hd] at h; simp at h
  | ok p =>
    obtain ⟨v, rest'⟩ := p
    rw [hd] at h
    dsimp only at h
    injection h with h'
    have h1 : v % 256 = a := congrArg Prod.fst h'
    have h2 : rest' = rest := congrArg Prod.snd h'
    obtain ⟨u, hin, det, pfxeof⟩ := PS_read_hex_digits 1 input v rest' hd
    refine ⟨u, by rw [hin, h2], ?_, ?_⟩
    · intro t
      unfold Reader.read_hex_u4
      rw [det t]
      dsimp only
      rw [h1]
    · intro p hp hne
      unfold Reader.read_hex_u4
      rw [pfxeof p hp hne]

theorem PS_read_hex_u8 : PS Reader.read_hex_u8 := by
  intro input a rest h
  unfold Reader.read_hex_u8 at h
  cases hd : Reader.read_hex_digits 2 input with
  | error e => rw [hd] at h; simp at h
  | ok p =>
    obtain ⟨v, rest'⟩ := p
    rw [hd] at h
    dsimp only at h
    injection h with h'
    have h1 : v % 256 = a := congrArg Prod.fst h'
    have h2 : rest' = rest := congrArg Prod.snd h'
    obtain ⟨u, hin, det, pfxeof⟩ := PS_read_hex_digits 2 input v rest' hd
    refine ⟨u, by rw [hin, h2], ?_, ?_⟩
    · intro t
      unfold Reader.read_hex_u8
      rw [det t]
      dsimp only
      rw [h1]
    · intro p hp hne
      unfold Reader.read_hex_u8
      rw [pfxeof p hp hne]

theorem PS_read_hex_identifier : PS Reader.read_hex_identifier := by
  intro input a rest h
  unfold Reader.read_hex_identifier at h
  cases hd : Reader.read_hex_digits 3 input with
  | error e => rw [hd] at h; simp at h
  | ok p =>
    obtain ⟨v, rest'⟩ := p
    rw [hd] at h
    dsimp only at h
    cases hfr : Identifier.from_raw (v % 65536) with
    | none => rw [hfr] at h; simp at h
    | some id =>
      rw [hfr] at h
      injection h with h'
      have h1 : id = a := congrArg Prod.fst h'
      have h2 : rest' = rest := congrArg Prod.snd h'
      obtain ⟨u, hin, det, pfxeof⟩ := PS_read_hex_digits 3 input v rest' hd
      refine ⟨u, by rw [hin, h2], ?_, ?_⟩
      · intro t
        unfold Reader.read_hex_identifier
        rw [det t]
        dsimp only
        rw [hfr]
        dsimp only
        rw [h1]
      · intro p hp hne
        unfold Reader.read_hex_identifier
        rw [pfxeof p hp hne]

theorem PS_read_hex_ext_identifier : PS Reader.read_hex_ext_identifier := by
  intro input a rest h
  unfold Reader.read_hex_ext_identifier at h
  cases hd : Reader.read_hex_digits 8 input with
  | error e => rw [hd] at h; simp at h
  | ok p =>
    obtain ⟨v, rest'⟩ := p
    rw [hd] at h
    dsimp only at h
    cases hfr : ExtIdentifier.from_raw v with
    | none => rw [hfr] at h; simp at h
    | some id =>
      rw [hfr] at h
      injection h with h'
      have h1 : id = a := congrArg Prod.fst h'
      have h2 : rest' = rest := congrArg Prod.snd h'
      obtain ⟨u, hin, det, pfxeof⟩ := PS_read_hex_digits 8 input v rest' hd
      refine ⟨u, by rw [hin, h2], ?_, ?_⟩
      · intro t
        unfold Reader.read_hex_ext_identifier
        rw [det t]
        dsimp only
        rw [hfr]
        dsimp only
        rw [h1]
      · intro p hp hne
        unfold Reader.read_hex_ext_identifier
        rw [pfxeof p hp hne]

theorem PSO_readFrameGo : ∀ (n : Nat) (g : CanFrame), PSO (Reader.readFrameGo n g)
  | 0, g => by
    intro input a rest h
    have har : g = a ∧ input = rest := by
      simpa [Reader.readFrameGo] using h
    obtain ⟨rfl, rfl⟩ := har
    exact ⟨[], rfl, fun t => rfl, fun p hp hne => by
      rcases List.prefix_nil.mp hp with rfl
      exact absurd rfl hne⟩
  | n + 1, g => by
    intro input a rest h
    rw [show Reader.readFrameGo (n + 1) g input =
        (match Reader.read_hex_u8 input with
         | Except.error e => some (Except.error e)
         | Except.ok (byte, rest') =>
           match CanFrame.push g byte with
           | (Except.error _, _) => none
           | (Except.ok _, frame') => Reader.readFrameGo n frame' rest')
      from rfl] at h
    cases hu : Reader.read_hex_u8 input with
    | error e => rw [hu] at h; simp at h
    | ok q =>
      obtain ⟨byte, input'⟩ := q
      rw [hu] at h
      dsimp only at h
      rcases hpush : CanFrame.push g byte with ⟨pr, fr'⟩
      rw [hpush] at h
      cases pr with
      | error e => simp at h
      | ok _ =>
        dsimp only at h
        obtain ⟨u1, hin1, det1, pfx1⟩ := PSO_readFrameGo n fr' input' a rest h
        obtain ⟨u0, hin0, det0, pfx0⟩ := PS_read_hex_u8 input byte input' hu
        refine ⟨u0 ++ u1, by rw [hin0, hin1, List.append_assoc], ?_, ?_⟩
        · intro t
          rw [List.append_assoc]
          rw [show Reader.readFrameGo (n + 1) g (u0 ++ (u1 ++ t)) =
              (match Reader.read_hex_u8 (u0 ++ (u1 ++ t)) with
               | Except.error e => some (Except.error e)
               | Except.ok (byte, rest') =>
                 match CanFrame.push g byte with
                 | (Except.error _, _) => none
                 | (Except.ok _, frame') => Reader.readFrameGo n frame' rest')
            from rfl, det0 (u1 ++ t)]
          dsimp only
          rw [hpush]
          exact det1 t
        · intro p hpfx hne
          rcases pfx_split hpfx with hcase | ⟨q, rfl, hq⟩
          · by_cases hpu : p = u0
            · subst hpu
              have hu1ne : u1 ≠ [] := by
                rintro rfl
                exact hne (by simp)
              have hd : Reader.read_hex_u8 p = Except.ok (byte, []) := by
                have hdt := det0 []
                rwa [List.append_nil] at hdt
              rw [show Reader.readFrameGo (n + 1) g p =
                  (match Reader.read_hex_u8 p with
                   | Except.error e => some (Except.error e)
                   | Except.ok (byte, rest') =>
                     match CanFrame.push g byte with
                     | (Except.error _, _) => none
                     | (Except.ok _, frame') => Reader.readFrameGo n frame' rest')
                from rfl, hd]
              dsimp only
              rw [hpush]
              exact pfx1 [] List.nil_prefix (fun hc => hu1ne hc.symm)
            · have he := pfx0 p hcase hpu
              rw [show Reader.readFrameGo (n + 1) g p =
                  (match Reader.read_hex_u8 p with
                   | Except.error e => some (Except.error e)
                   | Except.ok (byte, rest') =>
                     match CanFrame.push g byte with
                     | (Except.error _, _) => none
                     | (Except.ok _, frame') => Reader.readFrameGo n frame' rest')
                from rfl, he]
          · have hqne : q ≠ u1 := by
              rintro rfl
              exact hne rfl
            rw [show Reader.readFrameGo (n + 1) g (u0 ++ q) =
                (match Reader.read_hex_u8 (u0 ++ q) with
                 | Except.error e => some (Except.error e)
                 | Except.ok (byte, rest') =>
                   match CanFrame.push g byte with
                   | (Except.error _, _) => none
                   | (Except.ok _, frame') => Reader.readFrameGo n frame' rest')
              from rfl, det0 q]
            dsimp only
            rw [hpush]
            exact pfx1 q hq hqne

theorem PSO_read_frame (len : Nat) : PSO (Reader.read_frame len) := by
  intro input a rest h
  unfold Reader.read_frame at h
  by_cases hl : len ≤ 8
  · rw [if_pos hl] at h
    obtain ⟨u, hin, det, pfx⟩ := PSO_readFrameGo len CanFrame.new input a rest h
    refine ⟨u, hin, ?_, ?_⟩
    · intro t
      unfold Reader.read_frame
      rw [if_pos hl]
      exact det t
    · intro p hp hne
      unfold Reader.read_frame
      rw [if_pos hl]
      exact pfx p hp hne
  · rw [if_neg hl] at h
    simp at h

/-- Pointwise-equal functions share prefix safety. -/
theorem PSO_congr {α : Type}
    {f g : List Nat → Option (Except Error (α × List Nat))}
    (hfg : ∀ r, g r = f r) (hf : PSO f) : PSO g := by
  intro input a rest h
  rw [hfg] at h
  obtain ⟨u, hin, det, pfx⟩ := hf input a rest h
  exact ⟨u, hin, fun t => by rw [hfg]; exact det t,
    fun p hp hne => by rw [hfg]; exact pfx p hp hne⟩

theorem PSO_decodeSetup : PSO Command.decodeSetup := by
  intro input a rest h
  cases input with
  | nil => simp [Command.decodeSetup, Reader.read_byte] at h
  | cons b r2 =>
    rw [show Command.decodeSetup (b :: r2) =
        (match bitrateOfByte b with
         | some bitrate => some (Except.ok (Command.SetupWithBitrate bitrate, r2))
         | none => some (Except.error Error.decode)) from rfl] at h
    cases hb : bitrateOfByte b with
    | none => rw [hb] at h; simp at h
    | some bitrate =>
      rw [hb] at h
      dsimp only at h
      injection h with h'
      injection h' with h''
      have h1 : Command.SetupWithBitrate bitrate = a := congrArg Prod.fst h''
      have h2 : r2 = rest := congrArg Prod.snd h''
      refine ⟨[b], by rw [h2]; rfl, ?_, ?_⟩
      · intro t
        rw [show Command.decodeSetup ([b] ++ t) =
            (match bitrateOfByte b with
             | some bitrate =>
               some (Except.ok (Command.SetupWithBitrate bitrate, t))
             | none => some (Except.error Error.decode)) from rfl, hb]
        dsimp only
        rw [h1]
      · intro p hp hne
        rcases pfx_singleton hp with rfl | rfl
        · rfl
        · exact absurd rfl hne

theorem PSO_decodeSetRx : PSO Command.decodeSetRx := by
  intro input a rest h
  cases input with
  | nil => simp [Command.decodeSetRx, Reader.read_byte] at h
  | cons b r2 =>
    rw [show Command.decodeSetRx (b :: r2) =
        (match tsFlagOfByte b with
         | some timestamp => some (Except.ok (Command.SetRxTimestamp timestamp, r2))
         | none => some (Except.error Error.decode)) from rfl] at h
    cases hb : tsFlagOfByte b with
    | none => rw [hb] at h; simp at h
    | some timestamp =>
      rw [hb] at h
      dsimp only at h
      injection h with h'
      injection h' with h''
      have h1 : Command.SetRxTimestamp timestamp = a := congrArg Prod.fst h''
      have h2 : r2 = rest := congrArg Prod.snd h''
      refine ⟨[b], by rw [h2]; rfl, ?_, ?_⟩
      · intro t
        rw [show Command.decodeSetRx ([b] ++ t) =
            (match tsFlagOfByte b with
             | some timestamp =>
               some (Except.ok (Command.SetRxTimestamp timestamp, t))
             | none => some (Except.error Error.decode)) from rfl, hb]
        dsimp only
        rw [h1]
      · intro p hp hne
        rcases pfx_singleton hp with rfl | rfl
        · rfl
        · exact absurd rfl hne

theorem PSO_decodeTxStandardRtr : PSO Command.decodeTxStandardRtr := by
  intro input a rest h
  unfold Command.decodeTxStandardRtr at h
  cases hid : Reader.read_hex_identifier input with
  | error e => rw [hid] at h; simp at h
  | ok pr =>
    obtain ⟨idv, r2⟩ := pr
    rw [hid] at h
    dsimp only at h
    cases hu4 : Reader.read_hex_u4 r2 with
    | error e => rw [hu4] at h; simp at h
    | ok q =>
      obtain ⟨len, r3⟩ := q
      rw [hu4] at h
      dsimp only at h
      by_cases hlen : len > 8
      · rw [if_pos hlen] at h; simp at h
      · rw [if_neg hlen] at h
        injection h with h'
        injection h' with h''
        have h1 : Command.TxStandardRtr idv len = a := congrArg Prod.fst h''
        have h2 : r3 = rest := congrArg Prod.snd h''
        obtain ⟨u0, hin0, det0, pfx0⟩ := PS_read_hex_identifier input idv r2 hid
        obtain ⟨u1, hin1, det1, pfx1⟩ := PS_read_hex_u4 r2 len r3 hu4
        refine ⟨u0 ++ u1, by rw [hin0, hin1, h2, List.append_assoc], ?_, ?_⟩
        · intro t
          unfold Command.decodeTxStandardRtr
          rw [List.append_assoc, det0 (u1 ++ t)]
          dsimp only
          rw [det1 t]
          dsimp only
          rw [if_neg hlen, h1]
        · intro p hpfx hne
          unfold Command.decodeTxStandardRtr
          rcases pfx_split hpfx with hc0 | ⟨q, rfl, hq⟩
          · by_cases hp0 : p = u0
            · subst hp0
              have hdid : Reader.read_hex_identifier p = Except.ok (idv, []) := by
                have hdt := det0 []
                rwa [List.append_nil] at hdt
              rw [hdid]
              dsimp only
              rw [show Reader.read_hex_u4 ([] : List Nat) =
                  Except.error Error.eof from rfl]
            · rw [pfx0 p hc0 hp0]
          · by_cases hq1 : q = u1
            · subst hq1
              exact absurd rfl hne
            · rw [det0 q]
              dsimp only
              rw [pfx1 q hq hq1]

theorem PSO_decodeTxExtRtr : PSO Command.decodeTxExtRtr := by
  intro input a rest h
  unfold Command.decodeTxExtRtr at h
  cases hid : Reader.read_hex_ext_identifier input with
  | error e => rw [hid] at h; simp at h
  | ok pr =>
    obtain ⟨idv, r2⟩ := pr
    rw [hid] at h
    dsimp only at h
    cases hu4 : Reader.read_hex_u4 r2 with
    | error e => rw [hu4] at h; simp at h
    | ok q =>
      obtain ⟨len, r3⟩ := q
      rw [hu4] at h
      dsimp only at h
      by_cases hlen : len > 8
      · rw [if_pos hlen] at h; simp at h
      · rw [if_neg hlen] at h
        injection h with h'
        injection h' with h''
        have h1 : Command.TxExtRtr idv len = a := congrArg Prod.fst h''
        have h2 : r3 = rest := congrArg Prod.snd h''
        obtain ⟨u0, hin0, det0, pfx0⟩ := PS_read_hex_ext_identifier input idv r2 hid
        obtain ⟨u1, hin1, det1, pfx1⟩ := PS_read_hex_u4 r2 len r3 hu4
        refine ⟨u0 ++ u1, by rw [hin0, hin1, h2, List.append_assoc], ?_, ?_⟩
        · intro t
          unfold Command.decodeTxExtRtr
          rw [List.append_assoc, det0 (u1 ++ t)]
          dsimp only
          rw [det1 t]
          dsimp only
          rw [if_neg hlen, h1]
        · intro p hpfx hne
          unfold Command.decodeTxExtRtr
          rcases pfx_split hpfx with hc0 | ⟨q, rfl, hq⟩
          · by_cases hp0 : p = u0
            · subst hp0
              have hdid : Reader.read_hex_ext_identifier p = Except.ok (idv, []) := by
                have hdt := det0 []
                rwa [List.append_nil] at hdt
              rw [hdid]
              dsimp only
              rw [show Reader.read_hex_u4 ([] : List Nat) =
                  Except.error Error.eof from rfl]
            · rw [pfx0 p hc0 hp0]
          · by_cases hq1 : q = u1
            · subst hq1
              exact absurd rfl hne
            · rw [det0 q]
              dsimp only
              rw [pfx1 q hq hq1]

theorem PSO_decodeTxStandard : PSO Command.decodeTxStandard := by
  intro input a rest h
  unfold Command.decodeTxStandard at h
  cases hid : Reader.read_hex_identifier input with
  | error e => rw [hid] at h; simp at h
  | ok pr =>
    obtain ⟨idv, r2⟩ := pr
    rw [hid] at h
    dsimp only at h
    cases hu4 : Reader.read_hex_u4 r2 with
    | error e => rw [hu4] at h; simp at h
    | ok q =>
      obtain ⟨len, r3⟩ := q
      rw [hu4] at h
      dsimp only at h
      by_cases hlen : len > 8
      · rw [if_pos hlen] at h; simp at h
      · rw [if_neg hlen] at h
        cases hfr : Reader.read_frame len r3 with
        | none => rw [hfr] at h; simp at h
        | some res =>
          cases res with
          | error e => rw [hfr] at h; simp at h
          | ok fr =>
            obtain ⟨frame, r4⟩ := fr
            rw [hfr] at h
            dsimp only at h
            injection h with h'
            injection h' with h''
            have h1 : Command.TxStandard idv frame = a := congrArg Prod.fst h''
            have h2 : r4 = rest := congrArg Prod.snd h''
            obtain ⟨u0, hin0, det0, pfx0⟩ :=
              PS_read_hex_identifier input idv r2 hid
            obtain ⟨u1, hin1, det1, pfx1⟩ := PS_read_hex_u4 r2 len r3 hu4
            obtain ⟨u2, hin2, det2, pfx2⟩ := PSO_read_frame len r3 frame r4 hfr
            refine ⟨u0 ++ (u1 ++ u2),
              by rw [hin0, hin1, hin2, h2]; simp [List.append_assoc], ?_, ?_⟩
            · intro t
              unfold Command.decodeTxStandard
              rw [List.append_assoc, det0 ((u1 ++ u2) ++ t)]
              dsimp only
              rw [List.append_assoc, det1 (u2 ++ t)]
              dsimp only
              rw [if_neg hlen, det2 t]
              dsimp only
              rw [h1]
            · intro p hpfx hne
              unfold Command.decodeTxStandard
              rcases pfx_split hpfx with hc0 | ⟨q, rfl, hq⟩
              · by_cases hp0 : p = u0
                · subst hp0
                  have hdid : Reader.read_hex_identifier p =
                      Except.ok (idv, []) := by
                    have hdt := det0 []
                    rwa [List.append_nil] at hdt
                  rw [hdid]
                  dsimp only
                  rw [show Reader.read_hex_u4 ([] : List Nat) =
                      Except.error Error.eof from rfl]
                · rw [pfx0 p hc0 hp0]
              · rcases pfx_split hq with hc1 | ⟨q1, rfl, hq1⟩
                · by_cases hp1 : q = u1
                  · subst hp1
                    have hu2ne : u2 ≠ [] := by
                      rintro rfl
                      exact hne (by simp)
                    rw [det0 q]
                    dsimp only
                    have hd1 : Reader.read_hex_u4 q = Except.ok (len, []) := by
                      have hdt := det1 []
                      rwa [List.append_nil] at hdt
                    rw [hd1]
                    dsimp only
                    rw [if_neg hlen,
                      pfx2 [] List.nil_prefix (fun hc => hu2ne hc.symm)]
                  · rw [det0 q]
                    dsimp only
                    rw [pfx1 q hc1 hp1]
                · have hq1ne : q1 ≠ u2 := by
                    rintro rfl
                    exact hne rfl
                  rw [det0 (u1 ++ q1)]
                  dsimp only
                  rw [det1 q1]
                  dsimp only
                  rw [if_neg hlen, pfx2 q1 hq1 hq1ne]

theorem PSO_decodeTxExt : PSO Command.decodeTxExt := by
  intro input a rest h
  unfold Command.decodeTxExt at h
  cases hid : Reader.read_hex_ext_identifier input with
  | error e => rw [hid] at h; simp at h
  | ok pr =>
    obtain ⟨idv, r2⟩ := pr
    rw [hid] at h
    dsimp only at h
    cases hu4 : Reader.read_hex_u4 r2 with
    | error e => rw [hu4] at h; simp at h
    | ok q =>
      obtain ⟨len, r3⟩ := q
      rw [hu4] at h
      dsimp only at h
      by_cases hlen : len > 8
      · rw [if_pos hlen] at h; simp at h
      · rw [if_neg hlen] at h
        cases hfr : Reader.read_frame len r3 with
        | none => rw [hfr] at h; simp at h
        | some res =>
          cases res with
          | error e => rw [hfr] at h; simp at h
          | ok fr =>
            obtain ⟨frame, r4⟩ := fr
            rw [hfr] at h
            dsimp only at h
            injection h with h'
            injection h' with h''
            have h1 : Command.TxExt idv frame = a := congrArg Prod.fst h''
            have h2 : r4 = rest := congrArg Prod.snd h''
            obtain ⟨u0, hin0, det0, pfx0⟩ :=
              PS_read_hex_ext_identifier input idv r2 hid
            obtain ⟨u1, hin1, det1, pfx1⟩ := PS_read_hex_u4 r2 len r3 hu4
            obtain ⟨u2, hin2, det2, pfx2⟩ := PSO_read_frame len r3 frame r4 hfr
            refine ⟨u0 ++ (u1 ++ u2),
              by rw [hin0, hin1, hin2, h2]; simp [List.append_assoc], ?_, ?_⟩
            · intro t
              unfold Command.decodeTxExt
              rw [List.append_assoc, det0 ((u1 ++ u2) ++ t)]
              dsimp only
              rw [List.append_assoc, det1 (u2 ++ t)]
              dsimp only
              rw [if_neg hlen, det2 t]
              dsimp only
              rw [h1]
            · intro p hpfx hne
              unfold Command.decodeTxExt
              rcases pfx_split hpfx with hc0 | ⟨q, rfl, hq⟩
              · by_cases hp0 : p = u0
                · subst hp0
                  have hdid : Reader.read_hex_ext_identifier p =
                      Except.ok (idv, []) := by
                    have hdt := det0 []
                    rwa [List.append_nil] at hdt
                  rw [hdid]
                  dsimp only
                  rw [show Reader.read_hex_u4 ([] : List Nat) =
                      Except.error Error.eof from rfl]
                · rw [pfx0 p hc0 hp0]
              · rcases pfx_split hq with hc1 | ⟨q1, rfl, hq1⟩
                · by_cases hp1 : q = u1
                  · subst hp1
                    have hu2ne : u2 ≠ [] := by
                      rintro rfl
                      exact hne (by simp)
                    rw [det0 q]
                    dsimp only
                    have hd1 : Reader.read_hex_u4 q = Except.ok (len, []) := by
                      have hdt := det1 []
                      rwa [List.append_nil] at hdt
                    rw [hd1]
                    dsimp only
                    rw [if_neg hlen,
                      pfx2 [] List.nil_prefix (fun hc => hu2ne hc.symm)]
                  · rw [det0 q]
                    dsimp only
                    rw [pfx1 q hc1 hp1]
                · have hq1ne : q1 ≠ u2 := by
                    rintro rfl
                    exact hne rfl
                  rw [det0 (u1 ++ q1)]
                  dsimp only
                  rw [det1 q1]
                  dsimp only
                  rw [if_neg hlen, pfx2 q1 hq1 hq1ne]

/-- Arms that consume nothing (bare commands such as `O`, `C`) are
trivially prefix-safe. -/
theorem PSO_const_ok (c0 : Command) :
    PSO (fun r1 => some (Except.ok (c0, r1))) := by
  intro input a rest h
  injection h with h'
  injection h' with h''
  have h1 : c0 = a := congrArg Prod.fst h''
  have h2 : input = rest := congrArg Prod.snd h''
  refine ⟨[], by rw [h2]; rfl, ?_, ?_⟩
  · intro t
    show some (Except.ok (c0, t)) = some (Except.ok (a, t))
    rw [h1]
  · intro p hp hne
    rcases List.prefix_nil.mp hp with rfl
    exact absurd rfl hne

/-- The constant `Decode`-error arm (unknown opcode) is vacuously
prefix-safe. -/
theorem PSO_const_err :
    PSO (fun _ : List Nat =>
      (some (Except.error Error.decode) : Option (Except Error (Command × List Nat)))) := by
  intro input a rest h
  simp at h

theorem PSO_dispatch (op : Nat) : PSO (Command.dispatch op) := by
  by_cases h83 : op = 83
  · exact PSO_congr (fun r => by rw [h83]; rfl) PSO_decodeSetup
  by_cases h79 : op = 79
  · exact PSO_congr (fun r => by rw [h79]; rfl) (PSO_const_ok Command.Open)
  by_cases h67 : op = 67
  · exact PSO_congr (fun r => by rw [h67]; rfl) (PSO_const_ok Command.Close)
  by_cases h116 : op = 116
  · exact PSO_congr (fun r => by rw [h116]; rfl) PSO_decodeTxStandard
  by_cases h84 : op = 84
  · exact PSO_congr (fun r => by rw [h84]; rfl) PSO_decodeTxExt
  by_cases h114 : op = 114
  · exact PSO_congr (fun r => by rw [h114]; rfl) PSO_decodeTxStandardRtr
  by_cases h82 : op = 82
  · exact PSO_congr (fun r => by rw [h82]; rfl) PSO_decodeTxExtRtr
  by_cases h70 : op = 70
  · exact PSO_congr (fun r => by rw [h70]; rfl) (PSO_const_ok Command.ReadStatus)
  by_cases h86 : op = 86
  · exact PSO_congr (fun r => by rw [h86]; rfl) (PSO_const_ok Command.ReadVersion)
  by_cases h78 : op = 78
  · exact PSO_congr (fun r => by rw [h78]; rfl) (PSO_const_ok Command.ReadSerial)
  by_cases h90 : op = 90
  · exact PSO_congr (fun r => by rw [h90]; rfl) PSO_decodeSetRx
  · refine PSO_congr (fun r => ?_) PSO_const_err
    unfold Command.dispatch
    rw [if_neg h83, if_neg h79, if_neg h67, if_neg h116, if_neg h84, if_neg h114,
      if_neg h82, if_neg h70, if_neg h86, if_neg h78, if_neg h90]

theorem PSO_decodeBody : PSO Command.decodeBody := by
  intro input a rest h
  cases input with
  | nil => simp [Command.decodeBody, Reader.read_byte] at h
  | cons op r1 =>
    rw [show Command.decodeBody (op :: r1) = Command.dispatch op r1 from rfl] at h
    obtain ⟨u, hin, det, pfx⟩ := PSO_dispatch op r1 a rest h
    refine ⟨op :: u, by rw [hin]; rfl, ?_, ?_⟩
    · intro t
      rw [show Command.decodeBody ((op :: u) ++ t) =
          Command.dispatch op (u ++ t) from rfl]
      exact det t
    · intro p hp hne
      cases p with
      | nil => rfl
      | cons x p' =>
        obtain ⟨r, hr⟩ := hp
        rw [List.cons_append] at hr
        have hx : x = op := ((List.cons.injEq _ _ _ _).mp hr).1
        have hr' : p' ++ r = u := ((List.cons.injEq _ _ _ _).mp hr).2
        have hp' : p' <+: u := ⟨r, hr'⟩
        have hne' : p' ≠ u := by
          rintro rfl
          apply hne
          rw [hx]
        rw [show Command.decodeBody (x :: p') = Command.dispatch x p' from rfl, hx]
        exact pfx p' hp' hne'

/-- C6: truncated is distinct from malformed.  For every byte sequence
that `Command::decode` accepts (a grammatically well-formed CR-terminated
command), decoding any proper prefix of it — including the empty input —
returns the truncated error `Eof`, never the malformed error `Decode`;
in particular decoding the single byte `C` with no terminator returns
`Eof`. -/
theorem truncated_is_eof :
    (∀ (c : List Nat) (cmd : Command),
      Command.decode c = some (Except.ok cmd) →
      ∀ p, p <+: c → p ≠ c →
        Command.decode p = some (Except.error Error.eof)) ∧
    Command.decode [67] = some (Except.error Error.eof) := by
  refine ⟨?_, rfl⟩
  intro c cmd h p hpfx hne
  unfold Command.decode at h
  cases hb : Command.decodeBody c with
  | none => rw [hb] at h; simp at h
  | some res =>
    cases res with
    | error e => rw [hb] at h; simp at h
    | ok pr =>
      obtain ⟨cmd0, rest⟩ := pr
      rw [hb] at h
      dsimp only at h
      cases rest with
      | nil => simp [Reader.read_byte] at h
      | cons b rest2 =>
        rw [show Reader.read_byte (b :: rest2) = Except.ok (b, rest2) from rfl] at h
        dsimp only at h
        by_cases hb13 : b = 13
        · rw [if_neg (by simp [hb13])] at h
          cases rest2 with
          | cons x xs => simp at h
          | nil =>
            rw [if_neg (by simp)] at h
            injection h with h'
            injection h' with h''
            subst hb13
            obtain ⟨u, hin, det, pfx⟩ := PSO_decodeBody c cmd0 [13] hb
            have hcase : p <+: u ∨ p = c := by
              rw [hin] at hpfx
              rcases pfx_split hpfx with hc | ⟨q, rfl, hq⟩
              · exact Or.inl hc
              · rcases pfx_singleton hq with rfl | rfl
                · exact Or.inl (by simp)
                · exact Or.inr hin.symm
            rcases hcase with hc | rfl
            · by_cases hp : p = u
              · subst hp
                have hbp : Command.decodeBody p = some (Except.ok (cmd0, [])) := by
                  have hdt := det []
                  rwa [List.append_nil] at hdt
                unfold Command.decode
                rw [hbp]
                rfl
              · unfold Command.decode
                rw [pfx p hc hp]
            · exact absurd rfl hne
        · rw [if_pos (by simp [hb13])] at h
          simp at h

theorem truncated_is_eof_witness :
    Command.decode [116, 55, 70, 70, 49, 65, 65, 13] =
      some (Except.ok (Command.TxStandard ⟨0x7FF⟩ (CanFrame.fromList [0xAA]))) ∧
    Command.decode [116, 55, 70, 70, 49, 65] = some (Except.error Error.eof) :=
  ⟨by decide,
    truncated_is_eof.1 [116, 55, 70, 70, 49, 65, 65, 13]
      (Command.TxStandard ⟨0x7FF⟩ (CanFrame.fromList [0xAA]))
      (by decide) [116, 55, 70, 70, 49, 65] (by decide) (by decide)⟩
